import Mathlib

/-! Zwinge: a Huffman file compressor.

Shallow embedding of `src/Huffman.h` and `src/Huffman.cpp`, followed by the
properties of the codec that are proved about it.

Conventions of the embedding.

* A byte (`unsigned char`) is a `Nat`; a file is a `List Nat`.
* `std::string` values that only ever hold the characters `'0'` and `'1'`
  (the codes and the pending bit buffer) are `List Bool`, `false` for `'0'`
  and `true` for `'1'`.
* `unsigned int` arithmetic is `Nat` arithmetic reduced modulo `2 ^ 32`.
* A `std::map` is its list of entries in ascending key order.
* `std::priority_queue` is library code: the queue is the list of its
  elements and the choice made by `top()` is a parameter (`TopPolicy`).
* A local variable that is read without having been written holds an
  arbitrary value, supplied by `Junk`.
-/

namespace Huffman

/-! ## Data model (`Huffman.h`) -/

/-- Marker byte of an internal node in the serialised tree. -/
def INTERNAL_NODE_MARKER : Nat := 0

/-- Marker byte of a leaf in the serialised tree. -/
def LEAF_NODE_MARKER : Nat := 1

/-- A value of type `HuffmanNode*` (or `std::unique_ptr<HuffmanNode>`): the null
pointer, or the node pointed to with its fields `data`, `frequency`, `left`
and `right`. -/
inductive HuffmanNode where
  | null : HuffmanNode
  | node (data : Nat) (frequency : Nat) (left : HuffmanNode) (right : HuffmanNode) : HuffmanNode
  deriving DecidableEq, Repr

namespace HuffmanNode

/-- The test `!p`. -/
def isNull : HuffmanNode → Bool
  | null => true
  | node _ _ _ _ => false

/-- Field access `p->data`. -/
def data : HuffmanNode → Nat
  | null => 0
  | node d _ _ _ => d

/-- Field access `p->frequency`. -/
def frequency : HuffmanNode → Nat
  | null => 0
  | node _ f _ _ => f

/-- Field access `p->left.get()`. -/
def left : HuffmanNode → HuffmanNode
  | null => null
  | node _ _ l _ => l

/-- Field access `p->right.get()`. -/
def right : HuffmanNode → HuffmanNode
  | null => null
  | node _ _ _ r => r

end HuffmanNode

open HuffmanNode

/-- The comparison `HuffmanNode::CompareNodes`. -/
def CompareNodes (a b : HuffmanNode) : Bool :=
  decide (a.frequency > b.frequency)

/-! ## `std::map` as a list of entries in ascending key order -/

/-- The statement `m[k] = v`. -/
def mapAssign {α : Type} : List (Nat × α) → Nat → α → List (Nat × α)
  | [], k, v => [(k, v)]
  | (k', v') :: rest, k, v =>
    if k < k' then (k, v) :: (k', v') :: rest
    else if k = k' then (k, v) :: rest
    else (k', v') :: mapAssign rest k v

/-- The lookup `m.find(k)`. -/
def mapFind {α : Type} : List (Nat × α) → Nat → Option α
  | [], _ => none
  | (k', v') :: rest, k => if k = k' then some v' else mapFind rest k

/-- The statement `frequencies[byte]++` on `unsigned int` counters. -/
def mapIncrement : List (Nat × Nat) → Nat → List (Nat × Nat)
  | [], k => [(k, 1)]
  | (k', v') :: rest, k =>
    if k < k' then (k, 1) :: (k', v') :: rest
    else if k = k' then (k, (v' + 1) % 2 ^ 32) :: rest
    else (k', v') :: mapIncrement rest k

/-- The map invariant: keys strictly ascending. -/
def MapSorted {α : Type} (m : List (Nat × α)) : Prop :=
  (m.map Prod.fst).Pairwise (fun a b => a < b)

/-! ## `std::priority_queue` -/

/-- The choice of `top()`: the position, in the list of queued elements, of the
element that `top()` returns and `pop()` removes. -/
abbrev TopPolicy := List HuffmanNode → Nat

/-- The member `pq.top()`. -/
def pqTop (top : TopPolicy) (pq : List HuffmanNode) : HuffmanNode :=
  pq.getD (top pq) null

/-- The member `pq.pop()`. -/
def pqPop (top : TopPolicy) (pq : List HuffmanNode) : List HuffmanNode :=
  pq.eraseIdx (top pq)

/-- The member `pq.push(x)`. -/
def pqPush (pq : List HuffmanNode) (x : HuffmanNode) : List HuffmanNode :=
  pq ++ [x]

/-- The contract of `std::priority_queue` with `CompareNodes`: on a non-empty
queue `top()` is an element of the queue that `CompareNodes` ranks below no
other element, that is, one of least frequency. -/
def ValidTop (top : TopPolicy) : Prop :=
  ∀ pq : List HuffmanNode, pq ≠ [] →
    top pq < pq.length ∧ ∀ x ∈ pq, CompareNodes (pqTop top pq) x = false

/-- One admissible policy: the first element of least frequency. -/
def firstMin : TopPolicy
  | [] => 0
  | [_] => 0
  | x :: y :: rest =>
    let i := firstMin (y :: rest)
    if x.frequency ≤ ((y :: rest).getD i null).frequency then 0 else i + 1

/-! ## `Huffman.cpp` -/

/-- The method `Huffman::buildFrequencyMap`: one `frequencies[byte]++` per input byte. -/
def buildFrequencyMap (input : List Nat) : List (Nat × Nat) :=
  input.foldl mapIncrement []

/-- Body of the loop `while (pq.size() > 1)` of `buildHuffmanTree`. -/
def mergeStep (top : TopPolicy) (pq : List HuffmanNode) : List HuffmanNode :=
  let left := pqTop top pq
  let pq1 := pqPop top pq
  let right := pqTop top pq1
  let pq2 := pqPop top pq1
  pqPush pq2 (node 0 ((left.frequency + right.frequency) % 2 ^ 32) left right)

/-- The loop `while (pq.size() > 1)` of `buildHuffmanTree`, at most `fuel` rounds. -/
def mergeLoop (top : TopPolicy) : Nat → List HuffmanNode → List HuffmanNode
  | 0, pq => pq
  | fuel + 1, pq => if pq.length > 1 then mergeLoop top fuel (mergeStep top pq) else pq

/-- The leaves pushed by the first loop of `buildHuffmanTree`. -/
def initialQueue (frequencies : List (Nat × Nat)) : List HuffmanNode :=
  frequencies.foldl (fun pq e => pqPush pq (node e.1 e.2 null null)) []

/-- The method `Huffman::buildHuffmanTree`; the result is the new value of `root`. -/
def buildHuffmanTree (top : TopPolicy) (frequencies : List (Nat × Nat)) : HuffmanNode :=
  let pq := initialQueue frequencies
  if pq.isEmpty then null
  else if pq.length = 1 then
    let single_leaf := pqTop top pq
    node 0 single_leaf.frequency single_leaf null
  else pqTop top (mergeLoop top pq.length pq)

/-- The method `Huffman::generateHuffmanCodes`; the last argument is the value of
`huffmanCodes` before the call, the result its value after. -/
def generateHuffmanCodes : HuffmanNode → List Bool → List (Nat × List Bool) → List (Nat × List Bool)
  | null, _, codes => codes
  | node d _ l r, currentCode, codes =>
    if l.isNull && r.isNull then
      mapAssign codes d (if currentCode.isEmpty then [false] else currentCode)
    else
      generateHuffmanCodes r (currentCode ++ [true])
        (generateHuffmanCodes l (currentCode ++ [false]) codes)

/-- The method `Huffman::writeTree`; the result is the list of bytes put. -/
def writeTree : HuffmanNode → List Nat
  | null => []
  | node d _ l r =>
    if l.isNull && r.isNull then [LEAF_NODE_MARKER, d]
    else [INTERNAL_NODE_MARKER] ++ writeTree l ++ writeTree r

/-! ### Input streams -/

/-- State of a `std::ifstream`: the file, the read position and the state bits. -/
structure IStream where
  bytes : List Nat
  pos : Nat
  eofbit : Bool
  failbit : Bool
  deriving DecidableEq, Repr

namespace IStream

/-- A freshly opened stream. -/
def openFile (bytes : List Nat) : IStream := ⟨bytes, 0, false, false⟩

/-- The member `good()`. -/
def good (s : IStream) : Bool := !s.eofbit && !s.failbit

/-- The member `eof()`. -/
def eof (s : IStream) : Bool := s.eofbit

/-- The members `get(c)` and `read(&c, 1)`. A stream that is not good only gets
`failbit`; at the end of the file `eofbit` and `failbit` are set. In both cases
the destination keeps its old value `old`. -/
def get (s : IStream) (old : Nat) : Nat × IStream :=
  if s.good then
    match s.bytes[s.pos]? with
    | some b => (b, { s with pos := s.pos + 1 })
    | none => (old, { s with eofbit := true, failbit := true })
  else (old, { s with failbit := true })

/-- The member `tellg()`: `-1` on a failed stream. -/
def tellg (s : IStream) : Int :=
  if s.failbit then -1 else (s.pos : Int)

/-- The call `seekg(0, std::ios::end)`: clears `eofbit`, moves unless failed. -/
def seekgEnd (s : IStream) : IStream :=
  if s.failbit then { s with eofbit := false }
  else { s with eofbit := false, pos := s.bytes.length }

/-- The call `seekg(p)`: clears `eofbit`, moves unless failed; a position outside the
file fails. -/
def seekg (s : IStream) (p : Int) : IStream :=
  if s.failbit then { s with eofbit := false }
  else if 0 ≤ p ∧ p ≤ (s.bytes.length : Int) then { s with eofbit := false, pos := p.toNat }
  else { s with eofbit := false, failbit := true }

/-- The bytes that a loop `while (ifs.read(&c, 1))` obtains, in order. -/
def remaining (s : IStream) : List Nat :=
  if s.good then s.bytes.drop s.pos else []

end IStream

/-- Values held by the locals `marker` and `data` of `readTree` and `paddingBits` of
`decompressFile` before they are written: they are read when the preceding
`get`/`read` failed. Within one run each of them is read unwritten at most once: the
first failed read leaves the stream failed, and on a failed stream `readTree` returns
before reading, so one value for each local is enough. -/
structure Junk where
  marker : Nat
  data : Nat
  paddingBits : Nat
  deriving DecidableEq, Repr

/-- The method `Huffman::readTree` with recursion depth at most `fuel`; `none` when the
depth is exceeded. -/
def readTreeFuel (junk : Junk) : Nat → IStream → Option (HuffmanNode × IStream)
  | 0, _ => none
  | fuel + 1, s =>
    if !s.good || s.eof then some (null, s)
    else
      let r := s.get junk.marker
      if r.1 = LEAF_NODE_MARKER then
        let r2 := r.2.get junk.data
        some (node r2.1 0 null null, r2.2)
      else if r.1 = INTERNAL_NODE_MARKER then
        match readTreeFuel junk fuel r.2 with
        | none => none
        | some (left, s2) =>
          match readTreeFuel junk fuel s2 with
          | none => none
          | some (right, s3) => some (node 0 0 left right, s3)
      else some (null, r.2)

/-- The method `Huffman::readTree`. -/
def readTree (junk : Junk) (s : IStream) : Option (HuffmanNode × IStream) :=
  readTreeFuel junk (s.bytes.length + 2) s

/-! ### Bits and bytes -/

/-- The value `std::bitset<8>(str).to_ulong()` of a string of `'0'`/`'1'`. -/
def bitsToByte (bits : List Bool) : Nat :=
  bits.foldl (fun acc b => 2 * acc + (if b then 1 else 0)) 0

/-- The string `std::bitset<8>(byte).to_string()`: eight bits, most significant first. -/
def byteToBits (byte : Nat) : List Bool :=
  [byte / 128 % 2, byte / 64 % 2, byte / 32 % 2, byte / 16 % 2,
   byte / 8 % 2, byte / 4 % 2, byte / 2 % 2, byte % 2].map (fun d => decide (d = 1))

/-- The loop `while (currentBits.length() >= 8)` of `compressFile`: the bytes put and
the bits left in `currentBits`. -/
def flushBytes : List Bool → List Nat × List Bool
  | b0 :: b1 :: b2 :: b3 :: b4 :: b5 :: b6 :: b7 :: rest =>
    let r := flushBytes rest
    (bitsToByte [b0, b1, b2, b3, b4, b5, b6, b7] :: r.1, r.2)
  | bits => ([], bits)

/-- The expression `huffmanCodes[byte]`: the empty string for an absent key. -/
def codeOf (huffmanCodes : List (Nat × List Bool)) (byte : Nat) : List Bool :=
  (mapFind huffmanCodes byte).getD []

/-- The loop `while (ifs.read(&byte, 1))` of `compressFile`: the bytes put and the final
value of `currentBits`. -/
def packLoop (huffmanCodes : List (Nat × List Bool)) : List Nat → List Bool → List Nat × List Bool
  | [], currentBits => ([], currentBits)
  | byte :: rest, currentBits =>
    let f := flushBytes (currentBits ++ codeOf huffmanCodes byte)
    let r := packLoop huffmanCodes rest f.2
    (f.1 ++ r.1, r.2)

/-- The method `Huffman::compressFile` on an input file that opens, with an output file
that can be created: the return value and the content of the output file. -/
def compressFile (top : TopPolicy) (input : List Nat) : Bool × List Nat :=
  let frequencies := buildFrequencyMap input
  if frequencies.isEmpty then (true, [])
  else
    let root := buildHuffmanTree top frequencies
    let huffmanCodes := generateHuffmanCodes root [] []
    let header := writeTree root
    let padding_pos := header.length
    let r := packLoop huffmanCodes input []
    let currentBits := r.2
    let paddingBits := if currentBits.isEmpty then 0 else (8 - currentBits.length) % 256
    let last :=
      if currentBits.isEmpty then []
      else [bitsToByte ((currentBits ++ List.replicate (8 - currentBits.length) false).take 8)]
    (true, (header ++ [0] ++ r.1 ++ last).set padding_pos paddingBits)

/-- The loop `for (char bit : byteBits)` of `decompressFile`, started with `currentNode`:
`none` when a null node is reached, else the final `currentNode`; and the bytes put. -/
def walkBits (root : HuffmanNode) : List Bool → HuffmanNode → Option HuffmanNode × List Nat
  | [], currentNode => (some currentNode, [])
  | bit :: rest, currentNode =>
    let next := if bit = false then currentNode.left else currentNode.right
    if next.isNull then (none, [])
    else if next.left.isNull && next.right.isNull then
      let r := walkBits root rest root
      (r.1, next.data :: r.2)
    else walkBits root rest next

/-- The call `byteBits.substr(0, 8 - paddingBits)`: the count is converted to `size_t`. -/
def substrCount (paddingBits : Nat) : Nat :=
  (((8 : Int) - (paddingBits : Int)) % (2 ^ 64 : Int)).toNat

/-- The loop `while (ifs.read(&currentByte, 1))` of `decompressFile` over the bytes still
to be read: the return value decided so far (`false` for the early return) and the
bytes put. -/
def decodeLoop (root : HuffmanNode) (paddingBits : Nat) (compressedDataSize : Int) :
    List Nat → Int → HuffmanNode → Bool × List Nat
  | [], _, _ => (true, [])
  | currentByte :: rest, bytesRead, currentNode =>
    let bytesRead := bytesRead + 1
    let byteBits := byteToBits currentByte
    let byteBits :=
      if bytesRead = compressedDataSize then byteBits.take (substrCount paddingBits) else byteBits
    match walkBits root byteBits currentNode with
    | (none, out) => (false, out)
    | (some currentNode, out) =>
      let r := decodeLoop root paddingBits compressedDataSize rest bytesRead currentNode
      (r.1, out ++ r.2)

/-- The method `Huffman::decompressFile` on an input file that opens, with an output file
that can be created: the return value and the content of the output file; `none` only
when `readTree` exceeds its depth bound. -/
def decompressFile (junk : Junk) (file : List Nat) : Option (Bool × List Nat) :=
  match readTree junk (IStream.openFile file) with
  | none => none
  | some (root, ifs) =>
    if root.isNull then some (true, [])
    else
      let p := ifs.get junk.paddingBits
      let paddingBits := p.1
      let start_data_pos := p.2.tellg
      let ifs1 := p.2.seekgEnd
      let end_file_pos := ifs1.tellg
      let ifs2 := ifs1.seekg start_data_pos
      let compressedDataSize := end_file_pos - start_data_pos
      some (decodeLoop root paddingBits compressedDataSize ifs2.remaining 0 root)

/-! ## Notions used to state the properties -/

/-- Every internal node has exactly two children (and the tree is not null). -/
def isFull : HuffmanNode → Bool
  | null => false
  | node _ _ l r => (l.isNull && r.isNull) || (isFull l && isFull r)

/-- The shape of a tree and its leaf bytes: frequencies and the `data` of internal nodes
are set to zero, as `readTree` does. -/
def skeleton : HuffmanNode → HuffmanNode
  | null => null
  | node d _ l r =>
    if l.isNull && r.isNull then node d 0 null null
    else node 0 0 (skeleton l) (skeleton r)

/-- The sum `totalBits` of the code lengths of the bytes of an input. -/
def totalBits (huffmanCodes : List (Nat × List Bool)) (input : List Nat) : Nat :=
  (input.map (fun byte => (codeOf huffmanCodes byte).length)).sum

/-- The bits of a list of bytes, each byte most significant bit first. -/
def bytesToBits (bytes : List Nat) : List Bool :=
  bytes.flatMap byteToBits

/-- The leaves of a tree from left to right, each with its `data` and `frequency`. -/
def leaves : HuffmanNode → List (Nat × Nat)
  | null => []
  | node d f l r => if l.isNull && r.isNull then [(d, f)] else leaves l ++ leaves r

/-- The assignments `huffmanCodes[data] = code` that `generateHuffmanCodes` performs on a
tree, in the order in which it performs them. -/
def leafCodes : HuffmanNode → List Bool → List (Nat × List Bool)
  | null, _ => []
  | node d _ l r, currentCode =>
    if l.isNull && r.isNull then [(d, if currentCode.isEmpty then [false] else currentCode)]
    else leafCodes l (currentCode ++ [false]) ++ leafCodes r (currentCode ++ [true])

/-- The bits that the loop `while (ifs.read(&currentByte, 1))` of `decompressFile` hands to
the bit walk, in order, when it runs over the given bytes: all eight bits of a byte, or
the result of `substr` for the byte that makes `bytesRead` equal to
`compressedDataSize`. -/
def loopBits (paddingBits : Nat) (compressedDataSize : Int) : List Nat → Int → List Bool
  | [], _ => []
  | currentByte :: rest, bytesRead =>
    (if bytesRead + 1 = compressedDataSize then
        (byteToBits currentByte).take (substrCount paddingBits)
      else byteToBits currentByte) ++
      loopBits paddingBits compressedDataSize rest (bytesRead + 1)

/-- The participating payload bits of a stream: the bits that `decompressFile` walks
through when `readTree` has left the stream in the state `ifs`. -/
def participatingBits (junk : Junk) (ifs : IStream) : List Bool :=
  let p := ifs.get junk.paddingBits
  let start_data_pos := p.2.tellg
  let ifs1 := p.2.seekgEnd
  let end_file_pos := ifs1.tellg
  let ifs2 := ifs1.seekg start_data_pos
  loopBits p.1 (end_file_pos - start_data_pos) ifs2.remaining 0

/-- A node without children. -/
def isLeaf : HuffmanNode → Bool
  | null => false
  | node _ _ l r => l.isNull && r.isNull

/-- The leaves of a tree from left to right, each with its `data` and the path that leads
to it from the root: `false` for a step to the left child, `true` for a step to the right
child. -/
def leafPaths : HuffmanNode → List (Nat × List Bool)
  | null => []
  | node d _ l r =>
    if l.isNull && r.isNull then [(d, [])]
    else (leafPaths l).map (fun e => (e.1, false :: e.2)) ++
      (leafPaths r).map (fun e => (e.1, true :: e.2))

/-- The pointer reached from a node by a sequence of steps, `false` to the left child and
`true` to the right child. -/
def follow : HuffmanNode → List Bool → HuffmanNode
  | t, [] => t
  | t, step :: rest => follow (if step = false then t.left else t.right) rest

/-! ## The methods as they act on the object -/

/-- The data members of an object of class `Huffman`. -/
structure Members where
  frequencies : List (Nat × Nat)
  huffmanCodes : List (Nat × List Bool)
  root : HuffmanNode
  deriving DecidableEq, Repr

/-- The method `Huffman::buildFrequencyMap` as a change of the object: `frequencies` is
cleared, then counted up for each input byte. -/
def buildFrequencyMapOn (self : Members) (input : List Nat) : Members :=
  { self with frequencies := input.foldl mapIncrement [] }

/-- The method `Huffman::buildHuffmanTree` as a change of the object: `root` is set from
`frequencies`. -/
def buildHuffmanTreeOn (top : TopPolicy) (self : Members) : Members :=
  { self with root := buildHuffmanTree top self.frequencies }

/-- The method `Huffman::generateHuffmanCodes` as a change of the object: assignments into
`huffmanCodes`. -/
def generateHuffmanCodesOn (self : Members) (node : HuffmanNode) (currentCode : List Bool) :
    Members :=
  { self with huffmanCodes := generateHuffmanCodes node currentCode self.huffmanCodes }

/-- The method `Huffman::compressFile` called on an object in state `self`: the return
value, the content of the output file, and the state of the object afterwards. -/
def compressFileOn (top : TopPolicy) (self : Members) (input : List Nat) :
    (Bool × List Nat) × Members :=
  let self1 := buildFrequencyMapOn self input
  if self1.frequencies.isEmpty then ((true, []), self1)
  else
    let self2 := buildHuffmanTreeOn top self1
    let self3 := { self2 with huffmanCodes := [] }
    let self4 := generateHuffmanCodesOn self3 self3.root []
    let header := writeTree self4.root
    let padding_pos := header.length
    let r := packLoop self4.huffmanCodes input []
    let currentBits := r.2
    let paddingBits := if currentBits.isEmpty then 0 else (8 - currentBits.length) % 256
    let last :=
      if currentBits.isEmpty then []
      else [bitsToByte ((currentBits ++ List.replicate (8 - currentBits.length) false).take 8)]
    ((true, (header ++ [0] ++ r.1 ++ last).set padding_pos paddingBits), self4)

/-- The method `Huffman::decompressFile` called on an object in state `self`: the return
value, the content of the output file, and the state of the object afterwards; `none`
only when `readTree` exceeds its depth bound. -/
def decompressFileOn (junk : Junk) (self : Members) (file : List Nat) :
    Option ((Bool × List Nat) × Members) :=
  match readTree junk (IStream.openFile file) with
  | none => none
  | some (root, ifs) =>
    let self1 := { self with root := root }
    if self1.root.isNull then some ((true, []), self1)
    else
      let p := ifs.get junk.paddingBits
      let paddingBits := p.1
      let start_data_pos := p.2.tellg
      let ifs1 := p.2.seekgEnd
      let end_file_pos := ifs1.tellg
      let ifs2 := ifs1.seekg start_data_pos
      let compressedDataSize := end_file_pos - start_data_pos
      some (decodeLoop self1.root paddingBits compressedDataSize ifs2.remaining 0 self1.root,
        self1)

end Huffman

namespace Huffman
open HuffmanNode

/-! ## Basic facts -/

theorem mapIncrement_ne_nil (m : List (Nat × Nat)) (k : Nat) : mapIncrement m k ≠ [] := by
  cases m with
  | nil => simp [mapIncrement]
  | cons e rest =>
    obtain ⟨k', v'⟩ := e
    simp only [mapIncrement]
    split_ifs <;> simp

theorem foldl_mapIncrement_ne_nil (input : List Nat) (m : List (Nat × Nat)) (h : m ≠ []) :
    input.foldl mapIncrement m ≠ [] := by
  induction input generalizing m with
  | nil => simpa using h
  | cons b rest ih => exact ih _ (mapIncrement_ne_nil m b)

theorem buildFrequencyMap_ne_nil (input : List Nat) (h : input ≠ []) :
    buildFrequencyMap input ≠ [] := by
  cases input with
  | nil => exact absurd rfl h
  | cons b rest => exact foldl_mapIncrement_ne_nil rest _ (mapIncrement_ne_nil [] b)

theorem byteToBits_bitsToByte (b0 b1 b2 b3 b4 b5 b6 b7 : Bool) :
    byteToBits (bitsToByte [b0, b1, b2, b3, b4, b5, b6, b7]) = [b0, b1, b2, b3, b4, b5, b6, b7] := by
  cases b0 <;> cases b1 <;> cases b2 <;> cases b3 <;> cases b4 <;> cases b5 <;> cases b6 <;>
    cases b7 <;> rfl

theorem flushBytes_spec (bits : List Bool) :
    bytesToBits (flushBytes bits).1 ++ (flushBytes bits).2 = bits ∧
      (flushBytes bits).2.length < 8 := by
  induction bits using flushBytes.induct with
  | case1 b0 b1 b2 b3 b4 b5 b6 b7 rest ih =>
    simp only [flushBytes, bytesToBits, List.flatMap_cons, byteToBits_bitsToByte]
    refine ⟨?_, ih.2⟩
    have := ih.1
    simp only [bytesToBits] at this
    simp [this]
  | case2 bits h =>
    rw [flushBytes]
    · simp [bytesToBits]
      by_contra hlen
      push_neg at hlen
      match bits, hlen with
      | b0 :: b1 :: b2 :: b3 :: b4 :: b5 :: b6 :: b7 :: rest, _ => exact h _ _ _ _ _ _ _ _ _ rfl
    · exact h


theorem bytesToBits_length (bytes : List Nat) : (bytesToBits bytes).length = 8 * bytes.length := by
  induction bytes with
  | nil => rfl
  | cons b rest ih =>
    simp only [bytesToBits, List.flatMap_cons, List.length_append, List.length_cons] at ih ⊢
    rw [ih]
    simp [byteToBits]
    omega

theorem bytesToBits_append (a b : List Nat) : bytesToBits (a ++ b) = bytesToBits a ++ bytesToBits b := by
  simp [bytesToBits]

theorem packLoop_spec (codes : List (Nat × List Bool)) (input : List Nat) (cur : List Bool) :
    bytesToBits (packLoop codes input cur).1 ++ (packLoop codes input cur).2
        = cur ++ input.flatMap (codeOf codes) ∧
      ((packLoop codes input cur).2.length < 8 ∨ input = []) := by
  induction input generalizing cur with
  | nil => simp [packLoop, bytesToBits]
  | cons b rest ih =>
    have hf := flushBytes_spec (cur ++ codeOf codes b)
    have hr := ih (flushBytes (cur ++ codeOf codes b)).2
    simp only [packLoop, bytesToBits_append, List.flatMap_cons]
    constructor
    · rw [List.append_assoc, hr.1, ← List.append_assoc, hf.1, List.append_assoc]
    · left
      rcases hr.2 with h | h
      · exact h
      · subst h
        simpa [packLoop] using hf.2

theorem flatMap_codeOf_length (codes : List (Nat × List Bool)) (input : List Nat) :
    (input.flatMap (codeOf codes)).length = totalBits codes input := by
  induction input with
  | nil => rfl
  | cons b rest ih =>
    simp only [List.flatMap_cons, List.length_append, ih, totalBits, List.map_cons, List.sum_cons]

theorem packLoop_lengths (codes : List (Nat × List Bool)) (input : List Nat) :
    (packLoop codes input []).2.length = totalBits codes input % 8 ∧
      (packLoop codes input []).1.length = totalBits codes input / 8 := by
  have h := packLoop_spec codes input []
  have hlen := congrArg List.length h.1
  simp only [List.length_append, bytesToBits_length, List.nil_append, flatMap_codeOf_length] at hlen
  have h8 : (packLoop codes input []).2.length < 8 := by
    rcases h.2 with h | h
    · exact h
    · subst h; simp [packLoop]
  omega

theorem set_header (header : List Nat) (x v : Nat) (tail : List Nat) :
    (header ++ [x] ++ tail).set header.length v = header ++ v :: tail := by
  induction header with
  | nil => simp
  | cons a rest ih => simp

/-- The output of `compressFile` on a non-empty input: header, padding count, full
bytes, final padded byte. -/
theorem compressFile_eq (top : TopPolicy) (input : List Nat) (h : input ≠ []) :
    compressFile top input =
      (true,
        writeTree (buildHuffmanTree top (buildFrequencyMap input)) ++
          (if (packLoop (generateHuffmanCodes (buildHuffmanTree top (buildFrequencyMap input)) [] [])
                input []).2.isEmpty then 0
            else (8 - (packLoop (generateHuffmanCodes (buildHuffmanTree top (buildFrequencyMap input)) [] [])
                input []).2.length) % 256) ::
          ((packLoop (generateHuffmanCodes (buildHuffmanTree top (buildFrequencyMap input)) [] [])
                input []).1 ++
            (if (packLoop (generateHuffmanCodes (buildHuffmanTree top (buildFrequencyMap input)) [] [])
                input []).2.isEmpty then []
              else [bitsToByte (((packLoop (generateHuffmanCodes (buildHuffmanTree top (buildFrequencyMap input)) [] [])
                input []).2 ++ List.replicate (8 - (packLoop (generateHuffmanCodes (buildHuffmanTree top (buildFrequencyMap input)) [] [])
                input []).2.length) false).take 8)]))) := by
  have hne := buildFrequencyMap_ne_nil input h
  unfold compressFile
  simp only [List.isEmpty_iff, hne, if_false, Bool.false_eq_true]
  rw [List.append_assoc (_ ++ [0]), set_header]


theorem byteToBits_bitsToByte_of_length (bits : List Bool) (h : bits.length = 8) :
    byteToBits (bitsToByte bits) = bits := by
  match bits, h with
  | [b0, b1, b2, b3, b4, b5, b6, b7], _ => exact byteToBits_bitsToByte _ _ _ _ _ _ _ _

/-- C5. Empty input: `compressFile` on a zero-length input writes a zero-length output and
reports success, and so does `decompressFile` on a zero-length input, whatever the
uninitialised locals hold. -/
theorem empty_input (top : TopPolicy) (junk : Junk) :
    compressFile top [] = (true, []) ∧ decompressFile junk [] = some (true, []) := by
  refine ⟨rfl, ?_⟩
  obtain ⟨m, d, p⟩ := junk
  by_cases h1 : m = 1
  · subst h1; rfl
  · by_cases h0 : m = 0
    · subst h0; rfl
    · simp [decompressFile, readTree, readTreeFuel, IStream.openFile, IStream.good, IStream.eof,
        IStream.get, LEAF_NODE_MARKER, INTERNAL_NODE_MARKER, h1, h0, isNull]

/-- C8. Unreadable preamble: when `readTree` yields the null pointer on a stream,
`decompressFile` writes a zero-length output and reports success. -/
theorem unreadable_preamble_is_empty (junk : Junk) (file : List Nat) (s : IStream)
    (h : readTree junk (IStream.openFile file) = some (null, s)) :
    decompressFile junk file = some (true, []) := by
  simp [decompressFile, h, isNull]

theorem unreadable_preamble_is_empty_witness :
    readTree ⟨0, 0, 0⟩ (IStream.openFile [5, 1, 65]) = some (null, ⟨[5, 1, 65], 1, false, false⟩) ∧
      decompressFile ⟨0, 0, 0⟩ [5, 1, 65] = some (true, []) :=
  ⟨by decide, unreadable_preamble_is_empty ⟨0, 0, 0⟩ [5, 1, 65] ⟨[5, 1, 65], 1, false, false⟩ (by decide)⟩

/-- C6. Padding correctness: on a non-empty input the byte that `compressFile` writes right
after the tree preamble is `8 - totalBits % 8` when `totalBits % 8 ≠ 0` and `0`
otherwise, and this value is at most 7. -/
theorem padding_count_correct (top : TopPolicy) (input : List Nat) (h : input ≠ []) :
    (compressFile top input).2[(writeTree (buildHuffmanTree top (buildFrequencyMap input))).length]?
        = some (if totalBits (generateHuffmanCodes (buildHuffmanTree top (buildFrequencyMap input)) [] [])
                    input % 8 ≠ 0
                then 8 - totalBits (generateHuffmanCodes (buildHuffmanTree top (buildFrequencyMap input)) [] [])
                    input % 8
                else 0) ∧
      (if totalBits (generateHuffmanCodes (buildHuffmanTree top (buildFrequencyMap input)) [] [])
                    input % 8 ≠ 0
                then 8 - totalBits (generateHuffmanCodes (buildHuffmanTree top (buildFrequencyMap input)) [] [])
                    input % 8
                else 0) ≤ 7 := by
  rw [compressFile_eq top input h]
  obtain ⟨h2, -⟩ := packLoop_lengths
    (generateHuffmanCodes (buildHuffmanTree top (buildFrequencyMap input)) [] []) input
  generalize totalBits (generateHuffmanCodes (buildHuffmanTree top (buildFrequencyMap input)) [] [])
    input = n at h2 ⊢
  generalize packLoop (generateHuffmanCodes (buildHuffmanTree top (buildFrequencyMap input)) [] [])
    input [] = r at h2 ⊢
  have hlt : n % 8 < 8 := Nat.mod_lt _ (by decide)
  simp only [List.getElem?_append_right (le_refl _), Nat.sub_self, List.getElem?_cons_zero,
    List.isEmpty_iff, Option.some.injEq]
  constructor
  · by_cases hz : n % 8 = 0
    · have : r.2 = [] := List.length_eq_zero.mp (by omega)
      simp [hz, this]
    · have : r.2 ≠ [] := fun hh => by rw [hh] at h2; simp at h2; omega
      simp only [this, if_false, hz, ne_eq, not_false_eq_true, if_true, h2]
      omega
  · split_ifs <;> omega

theorem padding_count_correct_witness :
    ([1, 2, 3, 1, 2, 1] : List Nat) ≠ [] ∧
      ∃ v, (compressFile firstMin [1, 2, 3, 1, 2, 1]).2[(writeTree (buildHuffmanTree firstMin
        (buildFrequencyMap [1, 2, 3, 1, 2, 1]))).length]? = some v ∧ v ≤ 7 :=
  ⟨by decide, _, padding_count_correct firstMin [1, 2, 3, 1, 2, 1] (by decide)⟩


/-- C10. Bit-packing format: on a non-empty input the output of `compressFile` is the tree
preamble, the padding-count byte and a payload; the payload bytes read most significant
bit first are the codes of the input bytes in input order followed by padding-count zero
bits, so the payload has `ceil(totalBits / 8)` bytes. -/
theorem bit_packing_format (top : TopPolicy) (input : List Nat) (h : input ≠ []) :
    ∃ paddingCount payload,
      (compressFile top input).2 =
          writeTree (buildHuffmanTree top (buildFrequencyMap input)) ++ paddingCount :: payload ∧
        bytesToBits payload =
          input.flatMap (codeOf (generateHuffmanCodes (buildHuffmanTree top (buildFrequencyMap input)) [] []))
            ++ List.replicate paddingCount false ∧
        payload.length =
          (totalBits (generateHuffmanCodes (buildHuffmanTree top (buildFrequencyMap input)) [] []) input
            + 7) / 8 := by
  rw [compressFile_eq top input h]
  obtain ⟨h2, h1⟩ := packLoop_lengths
    (generateHuffmanCodes (buildHuffmanTree top (buildFrequencyMap input)) [] []) input
  have hs := (packLoop_spec
    (generateHuffmanCodes (buildHuffmanTree top (buildFrequencyMap input)) [] []) input []).1
  rw [List.nil_append] at hs
  rw [← hs]
  generalize totalBits (generateHuffmanCodes (buildHuffmanTree top (buildFrequencyMap input)) [] [])
    input = n at h1 h2 ⊢
  generalize packLoop (generateHuffmanCodes (buildHuffmanTree top (buildFrequencyMap input)) [] [])
    input [] = r at h1 h2 ⊢
  have hlt : n % 8 < 8 := Nat.mod_lt _ (by decide)
  refine ⟨_, _, rfl, ?_, ?_⟩
  · by_cases hz : r.2 = []
    · simp [hz, bytesToBits_append, bytesToBits]
    · have hpos : 0 < r.2.length := List.length_pos.mpr hz
      have hlen : (r.2 ++ List.replicate (8 - r.2.length) false).length = 8 := by
        simp only [List.length_append, List.length_replicate]; omega
      have hmod : (8 - r.2.length) % 256 = 8 - r.2.length := Nat.mod_eq_of_lt (by omega)
      simp only [List.isEmpty_iff, hz, if_false, bytesToBits_append, hmod]
      rw [List.take_of_length_le (le_of_eq hlen)]
      simp only [bytesToBits, List.flatMap_cons, List.flatMap_nil, List.append_nil]
      rw [byteToBits_bitsToByte_of_length _ hlen, List.append_assoc]
  · by_cases hz : r.2 = []
    · rw [hz] at h2
      simp only [List.length_nil] at h2
      simp only [hz, List.isEmpty_nil, if_true, List.append_nil, h1]
      omega
    · have hpos : 0 < r.2.length := List.length_pos.mpr hz
      simp only [List.isEmpty_iff, hz, if_false, List.length_append, List.length_singleton, h1]
      omega

theorem bit_packing_format_witness :
    ([1, 2, 3, 1, 2, 1] : List Nat) ≠ [] ∧
      ∃ paddingCount payload,
        (compressFile firstMin [1, 2, 3, 1, 2, 1]).2 =
            writeTree (buildHuffmanTree firstMin (buildFrequencyMap [1, 2, 3, 1, 2, 1])) ++
              paddingCount :: payload ∧
          bytesToBits payload =
            [1, 2, 3, 1, 2, 1].flatMap (codeOf (generateHuffmanCodes (buildHuffmanTree firstMin
              (buildFrequencyMap [1, 2, 3, 1, 2, 1])) [] [])) ++ List.replicate paddingCount false ∧
          payload.length =
            (totalBits (generateHuffmanCodes (buildHuffmanTree firstMin
              (buildFrequencyMap [1, 2, 3, 1, 2, 1])) [] []) [1, 2, 3, 1, 2, 1] + 7) / 8 :=
  ⟨by decide, bit_packing_format firstMin [1, 2, 3, 1, 2, 1] (by decide)⟩


theorem getElem?_of_drop_eq_cons {bytes : List Nat} {pos x : Nat} {xs : List Nat}
    (h : bytes.drop pos = x :: xs) : bytes[pos]? = some x ∧ bytes.drop (pos + 1) = xs := by
  constructor
  · have := congrArg List.head? h
    simpa [List.head?_drop] using this
  · have := congrArg List.tail h
    simpa [List.tail_drop] using this

theorem get_of_drop_eq_cons {bytes : List Nat} {pos x : Nat} {xs : List Nat} (old : Nat)
    (h : bytes.drop pos = x :: xs) :
    IStream.get ⟨bytes, pos, false, false⟩ old = (x, ⟨bytes, pos + 1, false, false⟩) := by
  simp [IStream.get, IStream.good, (getElem?_of_drop_eq_cons h).1]

theorem isFull_not_isNull {t : HuffmanNode} (h : isFull t = true) : t.isNull = false := by
  cases t with
  | null => simp [isFull] at h
  | node d f l r => rfl

theorem readTreeFuel_writeTree (junk : Junk) (t : HuffmanNode) (hfull : isFull t = true) :
    ∀ (fuel : Nat) (bytes : List Nat) (pos : Nat) (rest : List Nat),
      (writeTree t).length ≤ fuel → bytes.drop pos = writeTree t ++ rest →
      readTreeFuel junk fuel ⟨bytes, pos, false, false⟩ =
        some (skeleton t, ⟨bytes, pos + (writeTree t).length, false, false⟩) := by
  induction t with
  | null => simp [isFull] at hfull
  | node d f l r ihl ihr =>
    intro fuel bytes pos rest hfuel hdrop
    by_cases hleaf : (l.isNull && r.isNull) = true
    · simp only [writeTree, hleaf, if_true] at hfuel hdrop ⊢
      obtain ⟨fuel, rfl⟩ : ∃ k, fuel = k + 1 := ⟨fuel - 1, by simp at hfuel; omega⟩
      have h1 := get_of_drop_eq_cons junk.marker hdrop
      have h2 := get_of_drop_eq_cons junk.data (getElem?_of_drop_eq_cons hdrop).2
      simp [readTreeFuel, IStream.good, IStream.eof, h1, h2, skeleton, hleaf, LEAF_NODE_MARKER]
    · simp only [isFull, hleaf, Bool.false_or, Bool.and_eq_true] at hfull
      simp only [writeTree, hleaf, if_false, Bool.false_eq_true, List.length_append,
        List.length_singleton, List.append_assoc, List.singleton_append, List.length_cons]
        at hfuel hdrop ⊢
      obtain ⟨fuel, rfl⟩ : ∃ k, fuel = k + 1 := ⟨fuel - 1, by omega⟩
      have h1 := get_of_drop_eq_cons junk.marker hdrop
      have hl := ihl hfull.1 fuel bytes (pos + 1) (writeTree r ++ rest) (by omega)
        (getElem?_of_drop_eq_cons hdrop).2
      have hdrop2 : bytes.drop (pos + 1 + (writeTree l).length) = writeTree r ++ rest := by
        rw [← List.drop_drop, (getElem?_of_drop_eq_cons hdrop).2]
        simp
      have hr := ihr hfull.2 fuel bytes (pos + 1 + (writeTree l).length) rest (by omega) hdrop2
      simp [readTreeFuel, IStream.good, IStream.eof, h1, hl, hr, skeleton, hleaf,
        LEAF_NODE_MARKER, INTERNAL_NODE_MARKER]
      omega

/-- C9. Tree codec round trip: for a tree whose internal nodes all have two children,
`readTree` on the bytes of `writeTree` followed by any further bytes returns the tree of the
same shape and leaf bytes, and leaves the stream good and positioned right after the bytes
of `writeTree`. -/
theorem tree_codec_round_trip (junk : Junk) (t : HuffmanNode) (rest : List Nat)
    (hfull : isFull t = true) :
    readTree junk (IStream.openFile (writeTree t ++ rest)) =
      some (skeleton t, ⟨writeTree t ++ rest, (writeTree t).length, false, false⟩) := by
  have h := readTreeFuel_writeTree junk t hfull ((writeTree t ++ rest).length + 2)
    (writeTree t ++ rest) 0 rest (by simp; omega) rfl
  simpa [readTree, IStream.openFile] using h

theorem tree_codec_round_trip_witness :
    isFull (node 0 6 (node 1 3 null null) (node 0 3 (node 3 1 null null) (node 2 2 null null))) = true ∧
      readTree ⟨0, 0, 0⟩ (IStream.openFile
          (writeTree (node 0 6 (node 1 3 null null) (node 0 3 (node 3 1 null null) (node 2 2 null null)))
            ++ [7, 115, 0])) =
        some (skeleton (node 0 6 (node 1 3 null null) (node 0 3 (node 3 1 null null) (node 2 2 null null))),
          ⟨writeTree (node 0 6 (node 1 3 null null) (node 0 3 (node 3 1 null null) (node 2 2 null null)))
            ++ [7, 115, 0],
           (writeTree (node 0 6 (node 1 3 null null)
             (node 0 3 (node 3 1 null null) (node 2 2 null null)))).length, false, false⟩) :=
  ⟨by decide, tree_codec_round_trip ⟨0, 0, 0⟩ _ [7, 115, 0] (by decide)⟩

/-! ## Code tables -/

theorem mapFind_mapAssign {α : Type} (m : List (Nat × α)) (k : Nat) (v : α) (x : Nat) :
    mapFind (mapAssign m k v) x = if x = k then some v else mapFind m x := by
  induction m with
  | nil => simp [mapAssign, mapFind]
  | cons e rest ih =>
    obtain ⟨k', v'⟩ := e
    simp only [mapAssign]
    by_cases h1 : k < k'
    · simp [h1, mapFind]
    · by_cases h2 : k = k'
      · subst h2
        simp only [lt_self_iff_false, if_false, if_true, mapFind]
        split_ifs <;> rfl
      · simp only [h1, h2, if_false, mapFind, ih]
        by_cases h3 : x = k'
        · subst h3
          have : ¬ x = k := fun h => h2 h.symm
          simp [this]
        · simp [h3]

theorem generateHuffmanCodes_eq (t : HuffmanNode) (cur : List Bool) (m : List (Nat × List Bool)) :
    generateHuffmanCodes t cur m =
      (leafCodes t cur).foldl (fun m e => mapAssign m e.1 e.2) m := by
  induction t generalizing cur m with
  | null => rfl
  | node d f l r ihl ihr =>
    by_cases hleaf : (l.isNull && r.isNull) = true
    · simp [generateHuffmanCodes, leafCodes, hleaf]
    · simp [generateHuffmanCodes, leafCodes, hleaf, ihl, ihr, List.foldl_append]

theorem mapFind_foldl_mem (entries : List (Nat × List Bool)) (m : List (Nat × List Bool))
    (k : Nat) (c : List Bool)
    (h : mapFind (entries.foldl (fun m e => mapAssign m e.1 e.2) m) k = some c) :
    (k, c) ∈ entries ∨ mapFind m k = some c := by
  induction entries generalizing m with
  | nil => right; simpa using h
  | cons e rest ih =>
    simp only [List.foldl_cons] at h
    rcases ih _ h with h1 | h1
    · left; exact List.mem_cons_of_mem _ h1
    · rw [mapFind_mapAssign] at h1
      by_cases hk : k = e.1
      · simp only [hk, if_true, Option.some.injEq] at h1
        left
        rw [hk, ← h1]
        exact List.mem_cons_self _ _
      · simp only [hk, if_false] at h1
        right; exact h1

/-- Every code assigned below a node starts with the path to that node. -/
theorem leafCodes_extend (t : HuffmanNode) (cur : List Bool) :
    ∀ e ∈ leafCodes t cur, cur <+: e.2 := by
  induction t generalizing cur with
  | null => simp [leafCodes]
  | node d f l r ihl ihr =>
    intro e he
    by_cases hleaf : (l.isNull && r.isNull) = true
    · simp only [leafCodes, hleaf, if_true, List.mem_singleton] at he
      subst he
      by_cases hc : cur = []
      · simp [hc]
      · simp [hc]
    · simp only [leafCodes, hleaf, if_false, Bool.false_eq_true, List.mem_append] at he
      rcases he with he | he
      · exact (List.prefix_append cur [false]).trans (ihl _ e he)
      · exact (List.prefix_append cur [true]).trans (ihr _ e he)

theorem not_prefix_of_diverge (cur x y : List Bool) (hx : cur ++ [false] <+: x)
    (hy : cur ++ [true] <+: y) : ¬ x <+: y ∧ ¬ y <+: x := by
  obtain ⟨u, rfl⟩ := hx
  obtain ⟨v, rfl⟩ := hy
  constructor
  · rintro ⟨w, hw⟩
    simp only [List.append_assoc, List.append_cancel_left_eq, List.singleton_append,
      List.cons_append] at hw
    exact absurd (List.cons.inj hw).1 (by decide)
  · rintro ⟨w, hw⟩
    simp only [List.append_assoc, List.append_cancel_left_eq, List.singleton_append,
      List.cons_append] at hw
    exact absurd (List.cons.inj hw).1 (by decide)

/-- The codes assigned to different leaves are not prefixes of one another. -/
theorem leafCodes_pairwise (t : HuffmanNode) (cur : List Bool) :
    (leafCodes t cur).Pairwise (fun x y => ¬ x.2 <+: y.2 ∧ ¬ y.2 <+: x.2) := by
  induction t generalizing cur with
  | null => simp [leafCodes]
  | node d f l r ihl ihr =>
    by_cases hleaf : (l.isNull && r.isNull) = true
    · simp [leafCodes, hleaf]
    · simp only [leafCodes, hleaf, if_false, Bool.false_eq_true]
      rw [List.pairwise_append]
      refine ⟨ihl _, ihr _, ?_⟩
      intro x hx y hy
      exact not_prefix_of_diverge cur x.2 y.2 (leafCodes_extend l _ x hx) (leafCodes_extend r _ y hy)

theorem pairwise_mem_ne {α : Type} {R : α → α → Prop} {l : List α} (h : l.Pairwise R)
    (hsymm : ∀ x y, R x y → R y x) {x y : α} (hx : x ∈ l) (hy : y ∈ l) (hne : x ≠ y) : R x y := by
  induction l with
  | nil => simp at hx
  | cons a rest ih =>
    rw [List.pairwise_cons] at h
    rcases List.mem_cons.mp hx with hx | hx <;> rcases List.mem_cons.mp hy with hy | hy
    · exact absurd (hx.trans hy.symm) hne
    · rw [hx]; exact h.1 y hy
    · rw [hy]; exact hsymm _ _ (h.1 x hx)
    · exact ih h.2 hx hy

/-- C4. Prefix-free property: in the code table that `generateHuffmanCodes` produces from
the tree of `buildHuffmanTree`, the code of one byte value is never a prefix of the code of
a different byte value. This holds for every frequency table, in particular for those with
at least two distinct byte values. -/
theorem codes_prefix_free (top : TopPolicy) (frequencies : List (Nat × Nat)) (a b : Nat)
    (ca cb : List Bool) (hab : a ≠ b)
    (ha : mapFind (generateHuffmanCodes (buildHuffmanTree top frequencies) [] []) a = some ca)
    (hb : mapFind (generateHuffmanCodes (buildHuffmanTree top frequencies) [] []) b = some cb) :
    ¬ ca <+: cb := by
  rw [generateHuffmanCodes_eq] at ha hb
  have ha2 := (mapFind_foldl_mem _ _ _ _ ha).resolve_right (by simp [mapFind])
  have hb2 := (mapFind_foldl_mem _ _ _ _ hb).resolve_right (by simp [mapFind])
  have hp := leafCodes_pairwise (buildHuffmanTree top frequencies) []
  have := pairwise_mem_ne hp (fun x y h => ⟨h.2, h.1⟩) ha2 hb2
    (fun h => hab (congrArg Prod.fst h))
  exact this.1

theorem codes_prefix_free_witness :
    (1 : Nat) ≠ 3 ∧
      mapFind (generateHuffmanCodes (buildHuffmanTree firstMin [(1, 3), (2, 2), (3, 1)]) [] []) 1
        = some [false] ∧
      mapFind (generateHuffmanCodes (buildHuffmanTree firstMin [(1, 3), (2, 2), (3, 1)]) [] []) 3
        = some [true, false] ∧
      ¬ [false] <+: [true, false] :=
  ⟨by decide, by decide, by decide,
    codes_prefix_free firstMin [(1, 3), (2, 2), (3, 1)] 1 3 [false] [true, false]
      (by decide) (by decide) (by decide)⟩

/-! ## The priority queue and the merge loop -/

theorem perm_getD_eraseIdx {α : Type} (l : List α) (i : Nat) (d : α) (h : i < l.length) :
    List.Perm l (l.getD i d :: l.eraseIdx i) := by
  induction l generalizing i with
  | nil => simp at h
  | cons a rest ih =>
    cases i with
    | zero => simp
    | succ j =>
      simp only [List.length_cons, Nat.add_lt_add_iff_right] at h
      have := ih j h
      simp only [List.getD_cons_succ, List.eraseIdx_cons_succ]
      exact (List.Perm.cons a this).trans (List.Perm.swap _ _ _)

theorem initialQueue_eq (frequencies : List (Nat × Nat)) :
    initialQueue frequencies = frequencies.map (fun e => node e.1 e.2 null null) := by
  have h : ∀ (fr : List (Nat × Nat)) (acc : List HuffmanNode),
      fr.foldl (fun pq e => pqPush pq (node e.1 e.2 null null)) acc
        = acc ++ fr.map (fun e => node e.1 e.2 null null) := by
    intro fr
    induction fr with
    | nil => simp
    | cons e rest ih => intro acc; rw [List.foldl_cons, ih]; simp [pqPush]
  simpa [initialQueue] using h frequencies []

/-- What `top()` followed by `pop()` does on a non-empty queue under a valid policy. -/
theorem pqTop_pqPop (top : TopPolicy) (hv : ValidTop top) (pq : List HuffmanNode) (hne : pq ≠ []) :
    List.Perm pq (pqTop top pq :: pqPop top pq) ∧
      ∀ x ∈ pq, (pqTop top pq).frequency ≤ x.frequency := by
  obtain ⟨hlt, hmin⟩ := hv pq hne
  refine ⟨perm_getD_eraseIdx pq (top pq) null hlt, ?_⟩
  intro x hx
  have := hmin x hx
  simpa [CompareNodes] using this

theorem pqTop_singleton (top : TopPolicy) (hv : ValidTop top) (t : HuffmanNode) :
    pqTop top [t] = t := by
  obtain ⟨hlt, -⟩ := hv [t] (by simp)
  simp only [List.length_singleton, Nat.lt_one_iff] at hlt
  simp [pqTop, hlt]

/-- One round of the merge loop on a queue of at least two nodes: the two nodes taken are
of least frequency in turn, and the queue becomes the others followed by their parent. -/
theorem mergeStep_spec (top : TopPolicy) (hv : ValidTop top) (pq : List HuffmanNode)
    (hlen : 1 < pq.length) :
    ∃ a b rest, List.Perm pq (a :: b :: rest) ∧
      mergeStep top pq = rest ++ [node 0 ((a.frequency + b.frequency) % 2 ^ 32) a b] ∧
      (∀ x ∈ pq, a.frequency ≤ x.frequency) ∧ (∀ x ∈ b :: rest, b.frequency ≤ x.frequency) := by
  have hne : pq ≠ [] := by intro h; simp [h] at hlen
  obtain ⟨hp1, hm1⟩ := pqTop_pqPop top hv pq hne
  have hlen1 : (pqPop top pq).length + 1 = pq.length := by
    have := hp1.length_eq
    simp only [List.length_cons] at this
    omega
  have hne1 : pqPop top pq ≠ [] := by intro h; simp [h] at hlen1; omega
  obtain ⟨hp2, hm2⟩ := pqTop_pqPop top hv (pqPop top pq) hne1
  refine ⟨pqTop top pq, pqTop top (pqPop top pq), pqPop top (pqPop top pq), ?_, rfl, hm1, ?_⟩
  · exact hp1.trans (List.Perm.cons _ hp2)
  · intro x hx
    exact hm2 x (hp2.symm.subset hx)

/-- Invariant rule for the merge loop: a property of queues that is kept by every round
holds of the one-element queue the loop ends with. -/
theorem mergeLoop_invariant (top : TopPolicy) (hv : ValidTop top) (Inv : List HuffmanNode → Prop)
    (hstep : ∀ pq a b rest, List.Perm pq (a :: b :: rest) → Inv pq →
      Inv (rest ++ [node 0 ((a.frequency + b.frequency) % 2 ^ 32) a b])) :
    ∀ (fuel : Nat) (pq : List HuffmanNode), pq ≠ [] → pq.length ≤ fuel → Inv pq →
      ∃ t, mergeLoop top fuel pq = [t] ∧ Inv [t] := by
  intro fuel
  induction fuel with
  | zero =>
    intro pq hne hlen
    exact absurd (List.length_eq_zero.mp (Nat.le_zero.mp hlen)) hne
  | succ fuel ih =>
    intro pq hne hlen hinv
    by_cases h1 : 1 < pq.length
    · obtain ⟨a, b, rest, hperm, hstep_eq, -, -⟩ := mergeStep_spec top hv pq h1
      have hl := hperm.length_eq
      simp only [List.length_cons] at hl
      simp only [mergeLoop, gt_iff_lt, h1, if_true, hstep_eq]
      apply ih
      · simp
      · simp only [List.length_append, List.length_singleton]; omega
      · exact hstep pq a b rest hperm hinv
    · match pq, hne, h1 with
      | [t], _, _ => exact ⟨t, by simp [mergeLoop], hinv⟩
      | _ :: _ :: _, _, h1 => simp at h1

end Huffman

namespace Huffman
open HuffmanNode

theorem leaves_node_of_left (d f : Nat) (a b : HuffmanNode) (ha : a.isNull = false) :
    leaves (node d f a b) = leaves a ++ leaves b := by
  simp [leaves, ha]

theorem isFull_node_of_full (d f : Nat) (a b : HuffmanNode) (ha : isFull a = true)
    (hb : isFull b = true) : isFull (node d f a b) = true := by
  simp [isFull, ha, hb]

/-- The tree built from a table of one entry: the wrapped single leaf. -/
theorem buildHuffmanTree_single (top : TopPolicy) (hv : ValidTop top) (b f : Nat) :
    buildHuffmanTree top [(b, f)] = node 0 f (node b f null null) null := by
  simp [buildHuffmanTree, initialQueue, pqPush, pqTop_singleton top hv, frequency]

/-- The tree built from a table of at least two entries: every internal node has two
children, and the leaves are the table entries. -/
theorem buildHuffmanTree_shape (top : TopPolicy) (hv : ValidTop top)
    (frequencies : List (Nat × Nat)) (hlen : 2 ≤ frequencies.length) :
    isFull (buildHuffmanTree top frequencies) = true ∧
      List.Perm (leaves (buildHuffmanTree top frequencies)) frequencies := by
  have hq := initialQueue_eq frequencies
  have hqlen : (initialQueue frequencies).length = frequencies.length := by simp [hq]
  have hne : initialQueue frequencies ≠ [] := by
    intro h; rw [h] at hqlen; simp at hqlen; omega
  obtain ⟨t, ht, hfull, hleaves⟩ := mergeLoop_invariant top hv
    (fun pq => (∀ x ∈ pq, isFull x = true) ∧ List.Perm (pq.flatMap leaves) frequencies)
    (by
      rintro pq a b rest hperm ⟨hfull, hleaves⟩
      have ha : isFull a = true := hfull a (hperm.symm.subset (by simp))
      have hb : isFull b = true := hfull b (hperm.symm.subset (by simp))
      constructor
      · intro x hx
        rcases List.mem_append.mp hx with hx | hx
        · exact hfull x (hperm.symm.subset (by simp [hx]))
        · rw [List.mem_singleton.mp hx]
          exact isFull_node_of_full _ _ _ _ ha hb
      · refine List.Perm.trans ?_ ((hperm.flatMap_right leaves).symm.trans hleaves)
        simp only [List.flatMap_append, List.flatMap_cons, List.flatMap_nil, List.append_nil,
          leaves_node_of_left _ _ _ _ (isFull_not_isNull ha)]
        exact List.perm_append_comm.trans (by simp))
    (initialQueue frequencies).length (initialQueue frequencies) hne (le_refl _)
    (by
      rw [hq]
      constructor
      · intro x hx
        obtain ⟨e, -, rfl⟩ := List.mem_map.mp hx
        simp [isFull, isNull]
      · have : ∀ fr : List (Nat × Nat),
            (fr.map (fun e => node e.1 e.2 null null)).flatMap leaves = fr := by
          intro fr
          induction fr with
          | nil => rfl
          | cons e rest ih =>
            simp only [List.map_cons, List.flatMap_cons, ih]
            simp [leaves, isNull]
        rw [this])
  have hnotempty : (initialQueue frequencies).isEmpty = false := by
    simpa [List.isEmpty_iff] using hne
  have hne1 : ¬ (initialQueue frequencies).length = 1 := by omega
  simp only [buildHuffmanTree, hnotempty, hne1, if_false, Bool.false_eq_true, ht,
    pqTop_singleton top hv]
  refine ⟨hfull t (by simp), ?_⟩
  simpa using hleaves

theorem firstMin_spec (pq : List HuffmanNode) (hne : pq ≠ []) :
    firstMin pq < pq.length ∧ ∀ x ∈ pq, (pq.getD (firstMin pq) null).frequency ≤ x.frequency := by
  induction pq with
  | nil => exact absurd rfl hne
  | cons a rest ih =>
    cases rest with
    | nil => simp [firstMin]
    | cons b rest2 =>
      obtain ⟨h1, h2⟩ := ih (by simp)
      simp only [firstMin]
      by_cases hle : a.frequency ≤ ((b :: rest2).getD (firstMin (b :: rest2)) null).frequency
      · simp only [hle, if_true]
        refine ⟨by simp, ?_⟩
        intro x hx
        rcases List.mem_cons.mp hx with hx | hx
        · simp [hx]
        · simpa using hle.trans (h2 x hx)
      · simp only [hle, if_false]
        refine ⟨by simpa using h1, ?_⟩
        intro x hx
        simp only [List.getD_cons_succ]
        rcases List.mem_cons.mp hx with hx | hx
        · rw [hx]; omega
        · exact h2 x hx

/-- The policy `firstMin` meets the contract of the priority queue. -/
theorem firstMin_valid : ValidTop firstMin := by
  intro pq hne
  obtain ⟨h1, h2⟩ := firstMin_spec pq hne
  refine ⟨h1, ?_⟩
  intro x hx
  simpa [CompareNodes, pqTop] using h2 x hx

/-! ## Reading a truncated preamble -/

/-- On a stream that is not good `readTree` returns the null pointer at once. -/
theorem readTreeFuel_of_failed (junk : Junk) (fuel : Nat) (s : IStream) (h : s.failbit = true) :
    readTreeFuel junk (fuel + 1) s = some (null, s) := by
  simp [readTreeFuel, IStream.good, h]

/-- A call of `readTree` on a good stream at the end of the file: the read of the marker
fails, and whatever the uninitialised marker holds the stream is left failed. -/
theorem readTreeFuel_at_end (junk : Junk) (fuel : Nat) (bytes : List Nat) (pos : Nat)
    (h : bytes.drop pos = []) :
    ∃ r s, readTreeFuel junk (fuel + 2) ⟨bytes, pos, false, false⟩ = some (r, s) ∧
      s.failbit = true := by
  have hget : bytes[pos]? = none := by
    rw [List.getElem?_eq_none_iff]
    exact List.drop_eq_nil_iff.mp h
  by_cases h1 : junk.marker = 1
  · refine ⟨node junk.data 0 null null, ⟨bytes, pos, true, true⟩, ?_, rfl⟩
    simp [readTreeFuel, IStream.good, IStream.eof, IStream.get, hget, h1, LEAF_NODE_MARKER]
  · by_cases h0 : junk.marker = 0
    · refine ⟨node 0 0 null null, ⟨bytes, pos, true, true⟩, ?_, rfl⟩
      simp [readTreeFuel, IStream.good, IStream.eof, IStream.get, hget, h0, LEAF_NODE_MARKER,
        INTERNAL_NODE_MARKER]
    · refine ⟨null, ⟨bytes, pos, true, true⟩, ?_, rfl⟩
      simp [readTreeFuel, IStream.good, IStream.eof, IStream.get, hget, h1, h0, LEAF_NODE_MARKER,
        INTERNAL_NODE_MARKER]

end Huffman

namespace Huffman
open HuffmanNode

/-- Reading a preamble that was cut strictly inside: the stream ends up failed, and if at
least one byte was kept the result is not the null pointer. -/
theorem readTreeFuel_truncated (junk : Junk) (t : HuffmanNode) (hfull : isFull t = true) :
    ∀ (fuel : Nat) (bytes : List Nat) (pos k : Nat),
      k < (writeTree t).length → bytes.drop pos = (writeTree t).take k → k + 2 ≤ fuel →
      ∃ r s, readTreeFuel junk fuel ⟨bytes, pos, false, false⟩ = some (r, s) ∧
        s.failbit = true ∧ (0 < k → r.isNull = false) := by
  induction t with
  | null => simp [isFull] at hfull
  | node d f l r ihl ihr =>
    intro fuel bytes pos k hk hdrop hfuel
    cases k with
    | zero =>
      obtain ⟨fuel, rfl⟩ : ∃ n, fuel = n + 2 := ⟨fuel - 2, by omega⟩
      obtain ⟨r0, s0, h1, h2⟩ := readTreeFuel_at_end junk fuel bytes pos (by simpa using hdrop)
      exact ⟨r0, s0, h1, h2, fun h => absurd h (lt_irrefl 0)⟩
    | succ k =>
      obtain ⟨fuel, rfl⟩ : ∃ n, fuel = n + 1 := ⟨fuel - 1, by omega⟩
      by_cases hleaf : (l.isNull && r.isNull) = true
      · simp only [writeTree, hleaf, if_true, List.length_cons, List.length_nil] at hk
        have hk0 : k = 0 := by omega
        subst hk0
        simp only [writeTree, hleaf, if_true, List.take_succ_cons, List.take_zero] at hdrop
        have h1 := get_of_drop_eq_cons junk.marker hdrop
        have hget : bytes[pos + 1]? = none := by
          rw [List.getElem?_eq_none_iff]
          exact List.drop_eq_nil_iff.mp (getElem?_of_drop_eq_cons hdrop).2
        have h2 : IStream.get ⟨bytes, pos + 1, false, false⟩ junk.data =
            (junk.data, ⟨bytes, pos + 1, true, true⟩) := by
          simp [IStream.get, IStream.good, hget]
        refine ⟨node junk.data 0 null null, ⟨bytes, pos + 1, true, true⟩, ?_, rfl, fun _ => rfl⟩
        simp [readTreeFuel, IStream.good, IStream.eof, h1, h2, LEAF_NODE_MARKER]
      · simp only [isFull, hleaf, Bool.false_or, Bool.and_eq_true] at hfull
        simp only [writeTree, hleaf, if_false, Bool.false_eq_true, List.length_append,
          List.length_singleton, List.append_assoc, List.singleton_append, List.length_cons,
          List.take_succ_cons] at hk hdrop
        have h1 := get_of_drop_eq_cons junk.marker hdrop
        have hdrop1 : bytes.drop (pos + 1) = List.take k (writeTree l ++ writeTree r) :=
          (getElem?_of_drop_eq_cons hdrop).2
        by_cases hkl : k < (writeTree l).length
        · rw [List.take_append_of_le_length (le_of_lt hkl)] at hdrop1
          obtain ⟨rl, sl, hrl, hsl, -⟩ := ihl hfull.1 fuel bytes (pos + 1) k hkl hdrop1 (by omega)
          obtain ⟨fuel, rfl⟩ : ∃ n, fuel = n + 1 := ⟨fuel - 1, by omega⟩
          have hrr := readTreeFuel_of_failed junk fuel sl hsl
          refine ⟨node 0 0 rl null, sl, ?_, hsl, fun _ => rfl⟩
          rw [readTreeFuel]
          simp [IStream.good, IStream.eof, h1, hrl, hrr, LEAF_NODE_MARKER, INTERNAL_NODE_MARKER]
        · have hkl2 : (writeTree l).length ≤ k := by omega
          rw [List.take_append_eq_append_take, List.take_of_length_le hkl2] at hdrop1
          have hl := readTreeFuel_writeTree junk l hfull.1 fuel bytes (pos + 1)
            (List.take (k - (writeTree l).length) (writeTree r)) (by omega) hdrop1
          have hdrop2 : bytes.drop (pos + 1 + (writeTree l).length) =
              List.take (k - (writeTree l).length) (writeTree r) := by
            rw [← List.drop_drop, hdrop1]
            simp
          obtain ⟨rr, sr, hrr, hsr, -⟩ := ihr hfull.2 fuel bytes (pos + 1 + (writeTree l).length)
            (k - (writeTree l).length) (by omega) hdrop2 (by omega)
          refine ⟨node 0 0 (skeleton l) rr, sr, ?_, hsr, fun _ => rfl⟩
          rw [readTreeFuel]
          simp [IStream.good, IStream.eof, h1, hl, hrr, LEAF_NODE_MARKER, INTERNAL_NODE_MARKER]

/-- When `readTree` returns a tree and leaves the stream failed, `decompressFile` writes
nothing and returns `true`. -/
theorem decompressFile_of_failed (junk : Junk) (file : List Nat) (root : HuffmanNode) (s : IStream)
    (h : readTree junk (IStream.openFile file) = some (root, s)) (hfail : s.failbit = true) :
    decompressFile junk file = some (true, []) := by
  by_cases hnull : root.isNull = true
  · simp [decompressFile, h, hnull]
  · simp [decompressFile, h, hnull, IStream.get, IStream.good, hfail, IStream.tellg,
      IStream.seekgEnd, IStream.seekg, IStream.remaining, decodeLoop]

end Huffman

namespace Huffman
open HuffmanNode

/-- The cut preamble of a single-symbol file: `decompressFile` writes nothing and returns
`true`. -/
theorem decompressFile_cut_single (junk : Junk) (b k : Nat) (hk1 : 0 < k) (hk2 : k < 3) :
    decompressFile junk ([0, 1, b].take k) = some (true, []) := by
  obtain ⟨m, d, p⟩ := junk
  obtain rfl | rfl : k = 1 ∨ k = 2 := by omega
  · by_cases h1 : m = 1
    · subst h1; rfl
    · by_cases h0 : m = 0
      · subst h0; rfl
      · apply decompressFile_of_failed _ _ (node 0 0 null null) ⟨[0], 1, true, true⟩ _ rfl
        simp [readTree, readTreeFuel, IStream.openFile, IStream.good, IStream.eof, IStream.get,
          LEAF_NODE_MARKER, INTERNAL_NODE_MARKER, h1, h0]
  · rfl

/-- C7, as the code behaves. For a non-empty input, when the output of `compressFile` is
cut strictly inside the tree preamble (at least one preamble byte kept, at least one
removed), `decompressFile` on the cut stream returns `true` and writes a zero-length
output. -/
theorem truncated_preamble_reports_success (top : TopPolicy) (hv : ValidTop top) (junk : Junk)
    (input : List Nat) (hne : input ≠ []) (k : Nat) (hk1 : 0 < k)
    (hk2 : k < (writeTree (buildHuffmanTree top (buildFrequencyMap input))).length) :
    decompressFile junk ((compressFile top input).2.take k) = some (true, []) := by
  rw [compressFile_eq top input hne]
  simp only []
  rw [List.take_append_of_le_length (le_of_lt hk2)]
  have hfr := buildFrequencyMap_ne_nil input hne
  generalize buildFrequencyMap input = fr at hfr hk2 ⊢
  match fr, hfr with
  | [(b, f)], _ =>
    rw [buildHuffmanTree_single top hv] at hk2 ⊢
    exact decompressFile_cut_single junk b k hk1 (by simpa [writeTree, isNull] using hk2)
  | e1 :: e2 :: rest, _ =>
    obtain ⟨hfull, -⟩ := buildHuffmanTree_shape top hv (e1 :: e2 :: rest) (by simp)
    generalize buildHuffmanTree top (e1 :: e2 :: rest) = t at hfull hk2 ⊢
    have hlen : ((writeTree t).take k).length = k := by
      rw [List.length_take]; omega
    obtain ⟨r, s, hr, hs, -⟩ := readTreeFuel_truncated junk t hfull (k + 2)
      ((writeTree t).take k) 0 k hk2 rfl (le_refl _)
    apply decompressFile_of_failed junk _ r s _ hs
    simpa [readTree, IStream.openFile, hlen] using hr

theorem truncated_preamble_reports_success_witness :
    ([1, 2, 3, 1, 2, 1] : List Nat) ≠ [] ∧ 0 < 3 ∧
      3 < (writeTree (buildHuffmanTree firstMin (buildFrequencyMap [1, 2, 3, 1, 2, 1]))).length ∧
      decompressFile ⟨0, 0, 0⟩ ((compressFile firstMin [1, 2, 3, 1, 2, 1]).2.take 3) = some (true, []) :=
  ⟨by decide, by decide, by decide,
    truncated_preamble_reports_success firstMin firstMin_valid ⟨0, 0, 0⟩ [1, 2, 3, 1, 2, 1]
      (by decide) 3 (by decide) (by decide)⟩

/-- C7, as stated, fails: the compressed form of the six bytes `1 2 3 1 2 1` has a preamble
of eight bytes; cut after three of them, `decompressFile` does not return `false` but
`true`. -/
theorem truncated_preamble_counterexample :
    (compressFile firstMin [1, 2, 3, 1, 2, 1]).2 = [0, 1, 1, 0, 1, 3, 1, 2, 7, 115, 0] ∧
      writeTree (buildHuffmanTree firstMin (buildFrequencyMap [1, 2, 3, 1, 2, 1]))
        = [0, 1, 1, 0, 1, 3, 1, 2] ∧
      decompressFile ⟨0, 0, 0⟩ [0, 1, 1] = some (true, []) ∧
      ¬ ∃ out, decompressFile ⟨0, 0, 0⟩ ((compressFile firstMin [1, 2, 3, 1, 2, 1]).2.take 3)
        = some (false, out) := by
  refine ⟨by decide, by decide, by decide, ?_⟩
  rintro ⟨out, h⟩
  have h2 : decompressFile ⟨0, 0, 0⟩ ((compressFile firstMin [1, 2, 3, 1, 2, 1]).2.take 3)
      = some (true, []) := by decide
  rw [h2] at h
  simp at h

/-! ## Single-symbol inputs -/

/-- C1 fails on the code. The one-byte file `0x41` is compressed to `00 01 41 07 00`;
`readTree` takes the padding count `07` for the marker of the root's right child, so that
`decompressFile` reads the payload byte as the padding count, finds no payload, and
returns `true` with a zero-length output instead of the byte `0x41`. -/
theorem round_trip_fails_on_single_byte (junk : Junk) :
    compressFile firstMin [0x41] = (true, [0, 1, 0x41, 7, 0]) ∧
      readTree junk (IStream.openFile [0, 1, 0x41, 7, 0]) =
        some (node 0 0 (node 0x41 0 null null) null, ⟨[0, 1, 0x41, 7, 0], 4, false, false⟩) ∧
      decompressFile junk (compressFile firstMin [0x41]).2 = some (true, []) := by
  have hc : compressFile firstMin [0x41] = (true, [0, 1, 0x41, 7, 0]) := by decide
  have hr : readTree junk (IStream.openFile [0, 1, 0x41, 7, 0]) =
      some (node 0 0 (node 0x41 0 null null) null, ⟨[0, 1, 0x41, 7, 0], 4, false, false⟩) := by rfl
  refine ⟨hc, hr, ?_⟩
  rw [hc]
  simp [decompressFile, hr, isNull, IStream.get, IStream.good, IStream.tellg, IStream.seekgEnd,
    IStream.seekg, IStream.remaining, decodeLoop]

/-! ## Optimality: exchange argument on weights and depths -/

end Huffman

namespace Huffman
open HuffmanNode

end Huffman

namespace Huffman
open HuffmanNode

/-! ## Optimality: the merge loop -/

end Huffman

namespace Huffman
open HuffmanNode

end Huffman

namespace Huffman
open HuffmanNode

/-! ## Optimality: competing trees -/

theorem foldl_mapIncrement_replicate (b : Nat) (n f : Nat) :
    ∃ f', (List.replicate n b).foldl mapIncrement [(b, f)] = [(b, f')] := by
  induction n generalizing f with
  | zero => exact ⟨f, rfl⟩
  | succ n ih =>
    obtain ⟨f', hf'⟩ := ih ((f + 1) % 2 ^ 32)
    exact ⟨f', by simpa [List.replicate_succ, mapIncrement] using hf'⟩

theorem buildFrequencyMap_replicate (b n : Nat) (hn : 1 ≤ n) :
    ∃ f, buildFrequencyMap (List.replicate n b) = [(b, f)] := by
  obtain ⟨k, rfl⟩ : ∃ k, n = k + 1 := ⟨n - 1, by omega⟩
  obtain ⟨f, hf⟩ := foldl_mapIncrement_replicate b k 1
  exact ⟨f, by simpa [buildFrequencyMap, List.replicate_succ, mapIncrement] using hf⟩

theorem bitsToByte_replicate_false (k : Nat) : bitsToByte (List.replicate k false) = 0 := by
  have h : ∀ k acc, (List.replicate k false).foldl
      (fun acc b => 2 * acc + (if b then 1 else 0)) acc = 2 ^ k * acc := by
    intro k
    induction k with
    | zero => simp
    | succ k ih =>
      intro acc
      simp only [List.replicate_succ, List.foldl_cons, Bool.false_eq_true, if_false,
        Nat.add_zero, ih]
      ring
  simp [bitsToByte, h]

theorem flushBytes_replicate_false (j : Nat) (hj : j < 8) :
    flushBytes (List.replicate j false ++ [false]) =
      (List.replicate ((j + 1) / 8) 0, List.replicate ((j + 1) % 8) false) := by
  interval_cases j <;> rfl

theorem packLoop_replicate (codes : List (Nat × List Bool)) (b : Nat)
    (hcode : codeOf codes b = [false]) (n : Nat) :
    ∀ j, j < 8 → packLoop codes (List.replicate n b) (List.replicate j false) =
      (List.replicate ((j + n) / 8) 0, List.replicate ((j + n) % 8) false) := by
  induction n with
  | zero =>
    intro j hj
    simp [packLoop, Nat.div_eq_of_lt hj, Nat.mod_eq_of_lt hj]
  | succ n ih =>
    intro j hj
    simp only [List.replicate_succ, packLoop, hcode, flushBytes_replicate_false j hj]
    rw [ih ((j + 1) % 8) (Nat.mod_lt _ (by decide))]
    have e1 : ((j + 1) % 8 + n) % 8 = (j + (n + 1)) % 8 := by omega
    have e2 : (j + 1) / 8 + ((j + 1) % 8 + n) / 8 = (j + (n + 1)) / 8 := by omega
    rw [e1, ← List.replicate_add, e2]

/-- The compressed form of `n ≥ 1` copies of the byte `b`: the preamble `00 01 b`, the
padding count, and `ceil(n / 8)` zero bytes. -/
theorem compressFile_replicate (top : TopPolicy) (hv : ValidTop top) (b n : Nat) (hn : 1 ≤ n) :
    compressFile top (List.replicate n b) =
      (true, 0 :: 1 :: b :: (if n % 8 = 0 then 0 else 8 - n % 8) ::
        List.replicate ((n + 7) / 8) 0) := by
  have hne : List.replicate n b ≠ [] := by
    intro h
    have := congrArg List.length h
    simp at this; omega
  obtain ⟨f, hf⟩ := buildFrequencyMap_replicate b n hn
  have hcodes : generateHuffmanCodes (node 0 f (node b f null null) null) [] [] = [(b, [false])] := by
    simp [generateHuffmanCodes, isNull, mapAssign]
  have hpack := packLoop_replicate [(b, [false])] b (by simp [codeOf, mapFind]) n 0 (by decide)
  simp only [List.replicate_zero, Nat.zero_add] at hpack
  rw [compressFile_eq top _ hne, hf, buildHuffmanTree_single top hv, hcodes, hpack]
  have hw : writeTree (node 0 f (node b f null null) null) = [0, 1, b] := by
    simp [writeTree, isNull, LEAF_NODE_MARKER, INTERNAL_NODE_MARKER]
  rw [hw]
  have hlt : n % 8 < 8 := Nat.mod_lt _ (by decide)
  by_cases h0 : n % 8 = 0
  · have hm : (n + 7) / 8 = n / 8 := by omega
    simp [h0, hm]
  · have hm : (n + 7) / 8 = n / 8 + 1 := by omega
    have hmod : (8 - n % 8) % 256 = 8 - n % 8 := Nat.mod_eq_of_lt (by omega)
    have hrep : List.replicate (n % 8) false ++ List.replicate (8 - n % 8) false
        = List.replicate 8 false := by
      rw [← List.replicate_add]; congr 1; omega
    have hnil : ¬ (List.replicate (n % 8) false = []) := by
      intro h
      have := congrArg List.length h
      simp at this; omega
    have hz : bitsToByte (List.take 8 (List.replicate 8 false)) = 0 := by decide
    have hlast : List.replicate (n / 8) 0 ++ [0] = List.replicate (n / 8 + 1) 0 := by
      rw [List.replicate_add]; rfl
    simp only [List.isEmpty_iff, hnil, if_false, List.length_replicate, hmod, hrep, h0, hm,
      hz, hlast, List.cons_append, List.nil_append]

end Huffman

namespace Huffman
open HuffmanNode

/-- Reading a run of zero bytes up to the end of the file: a chain of internal nodes, and
the stream is left failed. -/
theorem readTreeFuel_zeros (junk : Junk) (j : Nat) :
    ∀ (fuel : Nat) (bytes : List Nat) (pos : Nat),
      bytes.drop pos = List.replicate j 0 → j + 2 ≤ fuel →
      ∃ r s, readTreeFuel junk fuel ⟨bytes, pos, false, false⟩ = some (r, s) ∧
        s.failbit = true := by
  induction j with
  | zero =>
    intro fuel bytes pos hdrop hfuel
    obtain ⟨fuel, rfl⟩ : ∃ n, fuel = n + 2 := ⟨fuel - 2, by omega⟩
    exact readTreeFuel_at_end junk fuel bytes pos (by simpa using hdrop)
  | succ j ih =>
    intro fuel bytes pos hdrop hfuel
    obtain ⟨fuel, rfl⟩ : ∃ n, fuel = n + 2 := ⟨fuel - 2, by omega⟩
    rw [List.replicate_succ] at hdrop
    have h1 := get_of_drop_eq_cons junk.marker hdrop
    obtain ⟨rl, sl, hrl, hsl⟩ := ih (fuel + 1) bytes (pos + 1) (getElem?_of_drop_eq_cons hdrop).2
      (by omega)
    have hrr := readTreeFuel_of_failed junk fuel sl hsl
    refine ⟨node 0 0 rl null, sl, ?_, hsl⟩
    rw [readTreeFuel]
    simp [IStream.good, IStream.eof, h1, hrl, hrr, LEAF_NODE_MARKER, INTERNAL_NODE_MARKER]

theorem walkBits_zero_byte (x y b f : Nat) (r : HuffmanNode) :
    walkBits (node x y (node b f null null) r) (byteToBits 0) (node x y (node b f null null) r)
      = (some (node x y (node b f null null) r), List.replicate 8 b) := by
  rfl

/-- Decoding a run of zero bytes with padding count 0 on a tree whose left child is the
leaf `b`: every bit yields one `b`. -/
theorem decodeLoop_zeros (x y b f : Nat) (r : HuffmanNode) (size : Int) (j : Nat) :
    ∀ bytesRead : Int,
      decodeLoop (node x y (node b f null null) r) 0 size (List.replicate j 0) bytesRead
          (node x y (node b f null null) r)
        = (true, List.replicate (8 * j) b) := by
  induction j with
  | zero => intro bytesRead; simp [decodeLoop]
  | succ j ih =>
    intro bytesRead
    have htake : (byteToBits 0).take (substrCount 0) = byteToBits 0 := by decide
    have hrep : List.replicate (8 * (j + 1)) b = List.replicate 8 b ++ List.replicate (8 * j) b := by
      rw [← List.replicate_add]; congr 1; omega
    rw [List.replicate_succ, decodeLoop]
    simp only [htake, ite_self, walkBits_zero_byte, ih, hrep]

theorem decompress_single_big_padding (junk : Junk) (b p m : Nat) (hp : 2 ≤ p) :
    decompressFile junk (0 :: 1 :: b :: p :: List.replicate (m + 1) 0) =
      some (true, List.replicate (8 * m) b) := by
  have hp0 : p ≠ 0 := by omega
  have hp1 : p ≠ 1 := by omega
  have hr : readTree junk (IStream.openFile (0 :: 1 :: b :: p :: List.replicate (m + 1) 0)) =
      some (node 0 0 (node b 0 null null) null,
        ⟨0 :: 1 :: b :: p :: List.replicate (m + 1) 0, 4, false, false⟩) := by
    simp [readTree, readTreeFuel, IStream.openFile, IStream.good, IStream.eof, IStream.get,
      LEAF_NODE_MARKER, INTERNAL_NODE_MARKER, hp0, hp1]
  unfold decompressFile
  rw [hr]
  have h5 : (5 : Int) ≤ (m : Int) + 1 + 1 + 1 + 1 + 1 := by omega
  simp only [isNull, IStream.get, IStream.good, IStream.tellg, IStream.seekgEnd,
    IStream.seekg, IStream.remaining, List.replicate_succ, List.length_cons,
    List.length_replicate, Bool.false_eq_true, if_false, Bool.not_false, Bool.and_self, if_true,
    List.getElem?_cons_succ, List.getElem?_cons_zero, Nat.cast_add, Nat.cast_one, h5,
    le_refl, and_self, Int.toNat_ofNat, List.drop_succ_cons, List.drop_zero, Nat.cast_ofNat,
    Int.reduceToNat, Nat.reduceAdd, Int.reduceLE, true_and]
  exact congrArg some (decodeLoop_zeros 0 0 b 0 null _ m 0)

theorem decompress_single_padding_one (junk : Junk) (b m : Nat) :
    decompressFile junk (0 :: 1 :: b :: 1 :: List.replicate (m + 1) 0) =
      some (true, List.replicate (8 * (m - 1)) b) := by
  have hr : readTree junk (IStream.openFile (0 :: 1 :: b :: 1 :: List.replicate (m + 1) 0)) =
      some (node 0 0 (node b 0 null null) (node 0 0 null null),
        ⟨0 :: 1 :: b :: 1 :: List.replicate (m + 1) 0, 5, false, false⟩) := by
    simp [readTree, readTreeFuel, IStream.openFile, IStream.good, IStream.eof, IStream.get,
      LEAF_NODE_MARKER, INTERNAL_NODE_MARKER, List.replicate_succ]
  unfold decompressFile
  rw [hr]
  cases m with
  | zero =>
    simp [isNull, IStream.get, IStream.good, IStream.tellg, IStream.seekgEnd,
      IStream.seekg, IStream.remaining, decodeLoop]
  | succ m =>
    have h6 : (6 : Int) ≤ (m : Int) + 1 + 1 + 1 + 1 + 1 + 1 := by omega
    simp only [isNull, IStream.get, IStream.good, IStream.tellg, IStream.seekgEnd,
      IStream.seekg, IStream.remaining, List.replicate_succ, List.length_cons,
      List.length_replicate, Bool.false_eq_true, if_false, Bool.not_false, Bool.and_self, if_true,
      List.getElem?_cons_succ, List.getElem?_cons_zero, Nat.cast_add, Nat.cast_one, h6,
      le_refl, and_self, Int.toNat_ofNat, List.drop_succ_cons, List.drop_zero, Nat.cast_ofNat,
      Int.reduceToNat, Nat.reduceAdd, Int.reduceLE, true_and, Nat.add_sub_cancel]
    exact congrArg some (decodeLoop_zeros 0 0 b 0 (node 0 0 null null) _ m 0)

theorem decompress_single_padding_zero (junk : Junk) (b m : Nat) :
    decompressFile junk (0 :: 1 :: b :: 0 :: List.replicate (m + 1) 0) = some (true, []) := by
  have hl := readTreeFuel_writeTree junk (node b 0 null null) (by simp [isFull, isNull]) (m + 6)
    (0 :: 1 :: b :: 0 :: List.replicate (m + 1) 0) 1 (0 :: List.replicate (m + 1) 0)
    (by simp [writeTree, isNull]) (by simp [writeTree, isNull, LEAF_NODE_MARKER])
  obtain ⟨r, s, hr, hs⟩ := readTreeFuel_zeros junk (m + 2) (m + 6)
    (0 :: 1 :: b :: 0 :: List.replicate (m + 1) 0) 3 (by simp [List.replicate_succ]) (by omega)
  have h0 : IStream.get ⟨0 :: 1 :: b :: 0 :: List.replicate (m + 1) 0, 0, false, false⟩ junk.marker
      = (0, ⟨0 :: 1 :: b :: 0 :: List.replicate (m + 1) 0, 0 + 1, false, false⟩) :=
    get_of_drop_eq_cons junk.marker rfl
  apply decompressFile_of_failed junk _ (node 0 0 (node b 0 null null) r) s _ hs
  have hlen : (0 :: 1 :: b :: 0 :: List.replicate (m + 1) 0).length + 2 = (m + 6) + 1 := by
    simp
  simp only [writeTree, isNull, Bool.and_self, if_true, List.length_cons, List.length_nil,
    skeleton] at hl
  simp only [readTree, IStream.openFile, hlen]
  rw [readTreeFuel]
  simp [IStream.good, IStream.eof, h0, hl, hr, LEAF_NODE_MARKER, INTERNAL_NODE_MARKER]

/-- C2 fails on the code, for every single-symbol input. For every byte `b` and every
`n ≥ 1`, `decompressFile` on the output of `compressFile` for `n` copies of `b` returns
`true` but writes fewer than `n` bytes: `readTree` takes the padding count for the marker of
the root's absent right child, so the payload is read from the wrong position. -/
theorem single_symbol_round_trip_fails (top : TopPolicy) (hv : ValidTop top) (junk : Junk)
    (b n : Nat) (hn : 1 ≤ n) :
    ∃ out, decompressFile junk (compressFile top (List.replicate n b)).2 = some (true, out) ∧
      out.length < n := by
  rw [compressFile_replicate top hv b n hn]
  obtain ⟨m, hm⟩ : ∃ m, (n + 7) / 8 = m + 1 := ⟨(n + 7) / 8 - 1, by omega⟩
  simp only [hm]
  by_cases h0 : n % 8 = 0
  · simp only [h0, if_true]
    exact ⟨[], decompress_single_padding_zero junk b m, by simpa using hn⟩
  · simp only [h0, if_false]
    by_cases h7 : n % 8 = 7
    · have e : 8 - n % 8 = 1 := by omega
      rw [e]
      refine ⟨_, decompress_single_padding_one junk b m, ?_⟩
      simp only [List.length_replicate]
      omega
    · refine ⟨_, decompress_single_big_padding junk b (8 - n % 8) m (by omega), ?_⟩
      simp only [List.length_replicate]
      omega

theorem single_symbol_round_trip_fails_witness :
    1 ≤ 1000 ∧
      ∃ out, decompressFile ⟨0, 0, 0⟩ (compressFile firstMin (List.replicate 1000 0x41)).2
          = some (true, out) ∧ out.length < 1000 :=
  ⟨by decide, single_symbol_round_trip_fails firstMin firstMin_valid ⟨0, 0, 0⟩ 0x41 1000 (by decide)⟩

/-! ## The frequency map -/

theorem mapIncrement_keys (m : List (Nat × Nat)) (k x : Nat) :
    x ∈ (mapIncrement m k).map Prod.fst ↔ x = k ∨ x ∈ m.map Prod.fst := by
  induction m with
  | nil => simp [mapIncrement]
  | cons e rest ih =>
    obtain ⟨k', v'⟩ := e
    simp only [mapIncrement]
    by_cases h1 : k < k'
    · simp [h1]
    · by_cases h2 : k = k'
      · subst h2; simp
      · simp only [h1, h2, if_false, List.map_cons, List.mem_cons, ih]
        tauto

theorem mapIncrement_sorted (m : List (Nat × Nat)) (k : Nat) (h : MapSorted m) :
    MapSorted (mapIncrement m k) := by
  induction m with
  | nil => simp [mapIncrement, MapSorted]
  | cons e rest ih =>
    obtain ⟨k', v'⟩ := e
    simp only [MapSorted, List.map_cons, List.pairwise_cons] at h
    simp only [mapIncrement]
    by_cases h1 : k < k'
    · simp only [h1, if_true, MapSorted, List.map_cons, List.pairwise_cons, List.mem_cons]
      refine ⟨?_, h.1, h.2⟩
      rintro a (rfl | ha)
      · exact h1
      · exact lt_trans h1 (h.1 a ha)
    · by_cases h2 : k = k'
      · subst h2
        simpa [MapSorted] using h
      · simp only [h1, h2, if_false, MapSorted, List.map_cons, List.pairwise_cons]
        refine ⟨?_, ih h.2⟩
        intro a ha
        rcases (mapIncrement_keys rest k a).mp ha with rfl | ha
        · omega
        · exact h.1 a ha

/-- The frequency map of an input has strictly ascending keys, and its keys are the byte
values that occur in the input. -/
theorem buildFrequencyMap_sorted (input : List Nat) :
    MapSorted (buildFrequencyMap input) ∧
      ∀ x, x ∈ (buildFrequencyMap input).map Prod.fst ↔ x ∈ input := by
  have h : ∀ (input : List Nat) (m : List (Nat × Nat)), MapSorted m →
      MapSorted (input.foldl mapIncrement m) ∧
        ∀ x, x ∈ (input.foldl mapIncrement m).map Prod.fst ↔ x ∈ m.map Prod.fst ∨ x ∈ input := by
    intro input
    induction input with
    | nil => intro m hm; simp [hm]
    | cons b rest ih =>
      intro m hm
      obtain ⟨h1, h2⟩ := ih (mapIncrement m b) (mapIncrement_sorted m b hm)
      refine ⟨h1, ?_⟩
      intro x
      rw [List.foldl_cons, h2 x, mapIncrement_keys]
      simp only [List.mem_cons]
      tauto
  obtain ⟨h1, h2⟩ := h input [] (by simp [MapSorted])
  exact ⟨h1, fun x => by simpa using h2 x⟩

/-! ## The bit walk of `decompressFile` -/

theorem walkBits_append (root : HuffmanNode) (a b : List Bool) (cur : HuffmanNode) :
    walkBits root (a ++ b) cur =
      match walkBits root a cur with
      | (none, out) => (none, out)
      | (some c, out) => ((walkBits root b c).1, out ++ (walkBits root b c).2) := by
  induction a generalizing cur with
  | nil => simp [walkBits]
  | cons bit rest ih =>
    rw [List.cons_append]
    simp only [walkBits]
    generalize (if bit = false then cur.left else cur.right) = next
    by_cases h1 : next.isNull = true
    · simp [h1]
    · by_cases h2 : (next.left.isNull && next.right.isNull) = true
      · simp only [h1, h2, if_true, if_false, ih root]
        rcases walkBits root rest root with ⟨_ | c, out⟩ <;> simp
      · simp [h1, h2, ih next]

/-- The byte loop of `decompressFile` is the bit walk over the bits of `loopBits`: it
returns `false` exactly when the walk reaches a null node. -/
theorem decodeLoop_eq_walk (root : HuffmanNode) (paddingBits : Nat) (size : Int)
    (bytes : List Nat) :
    ∀ (bytesRead : Int) (cur : HuffmanNode),
      decodeLoop root paddingBits size bytes bytesRead cur =
        match walkBits root (loopBits paddingBits size bytes bytesRead) cur with
        | (none, out) => (false, out)
        | (some _, out) => (true, out) := by
  induction bytes with
  | nil => intro bytesRead cur; simp [decodeLoop, loopBits, walkBits]
  | cons b rest ih =>
    intro bytesRead cur
    simp only [decodeLoop, loopBits]
    rw [walkBits_append]
    rcases hw : walkBits root (if bytesRead + 1 = size then
        List.take (substrCount paddingBits) (byteToBits b) else byteToBits b) cur
      with ⟨_ | c, out⟩
    · rfl
    · simp only [ih]
      rcases hw2 : walkBits root (loopBits paddingBits size rest (bytesRead + 1)) c
        with ⟨_ | c2, out2⟩ <;> rfl

/-- The result of `decompressFile` once `readTree` has returned a tree: `false` exactly
when the walk over the participating bits reaches a null node; the output is what the
walk has put. -/
theorem decompressFile_eq_walk (junk : Junk) (file : List Nat) (root : HuffmanNode) (s : IStream)
    (h : readTree junk (IStream.openFile file) = some (root, s)) (hroot : root.isNull = false) :
    decompressFile junk file =
      some (match walkBits root (participatingBits junk s) root with
        | (none, out) => (false, out)
        | (some _, out) => (true, out)) := by
  simp only [decompressFile, h, hroot, Bool.false_eq_true, if_false, participatingBits,
    decodeLoop_eq_walk]

end Huffman

namespace Huffman
open HuffmanNode

theorem substrCount_of_le (p : Nat) (hp : p ≤ 8) : substrCount p = 8 - p := by
  interval_cases p <;> rfl

theorem byteToBits_length (b : Nat) : (byteToBits b).length = 8 := by
  simp [byteToBits]

/-- With a padding count of at most 8 the loop walks through the bits of the bytes except
the last `paddingBits` bits. -/
theorem loopBits_eq_take (p : Nat) (hp : p ≤ 8) (bytes : List Nat) :
    ∀ (k size : Int), size = k + bytes.length →
      loopBits p size bytes k = (bytesToBits bytes).take (8 * bytes.length - p) := by
  induction bytes with
  | nil => intro k size _; simp [loopBits, bytesToBits]
  | cons b rest ih =>
    intro k size hsize
    simp only [List.length_cons, Nat.cast_add, Nat.cast_one] at hsize
    simp only [loopBits, substrCount_of_le p hp, bytesToBits, List.flatMap_cons, List.length_cons]
    rw [ih (k + 1) size (by rw [hsize]; ring)]
    by_cases hrest : rest = []
    · subst hrest
      have : k + 1 = size := by rw [hsize]; simp
      simp [this, loopBits, bytesToBits]
    · have hpos : 0 < rest.length := List.length_pos.mpr hrest
      have hne : ¬ (k + 1 = size) := by
        rw [hsize]
        intro h
        have : (rest.length : Int) = 0 := by linarith
        omega
      have h1 : List.take (8 * (rest.length + 1) - p) (byteToBits b) = byteToBits b :=
        List.take_of_length_le (by rw [byteToBits_length]; omega)
      simp only [hne, if_false, bytesToBits]
      rw [List.take_append_eq_append_take, h1, byteToBits_length]
      congr 2
      omega

/-- The participating bits of a good stream that holds the padding count `p` and then the
bytes `payload`. -/
theorem participatingBits_of_payload (junk : Junk) (file : List Nat) (pos p : Nat)
    (payload : List Nat) (h : file.drop pos = p :: payload) :
    participatingBits junk ⟨file, pos, false, false⟩ = loopBits p payload.length payload 0 := by
  have hget := get_of_drop_eq_cons junk.paddingBits h
  have hlen : file.length = pos + 1 + payload.length := by
    have := congrArg List.length h
    simp only [List.length_drop, List.length_cons] at this
    omega
  have hrem : file.drop (pos + 1) = payload := (getElem?_of_drop_eq_cons h).2
  have hle : ((pos : Int) + 1 ≤ (file.length : Int)) := by rw [hlen]; push_cast; omega
  have hnn : (0 : Int) ≤ (pos : Int) + 1 := by omega
  have hsub : (file.length : Int) - ((pos : Int) + 1) = (payload.length : Int) := by
    rw [hlen]; push_cast; ring
  simp only [participatingBits, hget, IStream.tellg, IStream.seekgEnd, IStream.seekg,
    IStream.remaining, IStream.good, Bool.false_eq_true, if_false, Nat.cast_add, Nat.cast_one,
    hle, hnn, and_self, if_true, Bool.not_false, Bool.and_self, hsub]
  have ht : ((pos : Int) + 1).toNat = pos + 1 := by omega
  rw [ht, hrem]

end Huffman

namespace Huffman
open HuffmanNode

/-- C11. Broken traversal is a failure: when `readTree` returns a non-null tree and the
walk over the participating payload bits (0 = left, 1 = right, restart at the root after
each leaf) moves the traversal pointer to a missing child, `decompressFile` returns
`false`; the output is what was put before that step. -/
theorem broken_traversal_fails (junk : Junk) (file : List Nat) (root : HuffmanNode) (s : IStream)
    (h : readTree junk (IStream.openFile file) = some (root, s)) (hroot : root.isNull = false)
    (hwalk : (walkBits root (participatingBits junk s) root).1 = none) :
    decompressFile junk file = some (false, (walkBits root (participatingBits junk s) root).2) := by
  rw [decompressFile_eq_walk junk file root s h hroot]
  rcases hw : walkBits root (participatingBits junk s) root with ⟨_ | c, out⟩
  · rfl
  · rw [hw] at hwalk
    simp at hwalk

theorem broken_traversal_fails_witness :
    readTree ⟨0, 0, 0⟩ (IStream.openFile [0, 1, 65, 7, 0, 128]) =
        some (node 0 0 (node 65 0 null null) null, ⟨[0, 1, 65, 7, 0, 128], 4, false, false⟩) ∧
      (walkBits (node 0 0 (node 65 0 null null) null)
        (participatingBits ⟨0, 0, 0⟩ ⟨[0, 1, 65, 7, 0, 128], 4, false, false⟩)
        (node 0 0 (node 65 0 null null) null)).1 = none ∧
      decompressFile ⟨0, 0, 0⟩ [0, 1, 65, 7, 0, 128] = some (false, []) :=
  ⟨by decide, by decide,
    broken_traversal_fails ⟨0, 0, 0⟩ [0, 1, 65, 7, 0, 128] (node 0 0 (node 65 0 null null) null)
      ⟨[0, 1, 65, 7, 0, 128], 4, false, false⟩ (by decide) (by decide) (by decide)⟩

/-- C20. Payload ending inside a codeword is accepted: when `readTree` returns a non-null
tree, `decompressFile` returns `false` only if the walk over the participating bits steps
onto a missing child; whenever the walk ends on a node, be it the root or an internal node
in the middle of a codeword, `decompressFile` returns `true` and the output is exactly the
bytes of the leaves reached. -/
theorem unfinished_codeword_accepted (junk : Junk) (file : List Nat) (root : HuffmanNode)
    (s : IStream) (h : readTree junk (IStream.openFile file) = some (root, s))
    (hroot : root.isNull = false) :
    (∀ out, decompressFile junk file = some (false, out) →
        (walkBits root (participatingBits junk s) root).1 = none) ∧
      (∀ cur out, walkBits root (participatingBits junk s) root = (some cur, out) →
        decompressFile junk file = some (true, out)) := by
  rw [decompressFile_eq_walk junk file root s h hroot]
  constructor
  · intro out hout
    rcases hw : walkBits root (participatingBits junk s) root with ⟨_ | c, out2⟩
    · rfl
    · rw [hw] at hout
      simp at hout
  · intro cur out hw
    rw [hw]

theorem unfinished_codeword_accepted_witness :
    readTree ⟨0, 0, 0⟩ (IStream.openFile [0, 1, 65, 0, 1, 66, 1, 67, 6, 64]) =
        some (node 0 0 (node 65 0 null null) (node 0 0 (node 66 0 null null) (node 67 0 null null)),
          ⟨[0, 1, 65, 0, 1, 66, 1, 67, 6, 64], 8, false, false⟩) ∧
      walkBits (node 0 0 (node 65 0 null null) (node 0 0 (node 66 0 null null) (node 67 0 null null)))
          (participatingBits ⟨0, 0, 0⟩ ⟨[0, 1, 65, 0, 1, 66, 1, 67, 6, 64], 8, false, false⟩)
          (node 0 0 (node 65 0 null null) (node 0 0 (node 66 0 null null) (node 67 0 null null)))
        = (some (node 0 0 (node 66 0 null null) (node 67 0 null null)), [65]) ∧
      decompressFile ⟨0, 0, 0⟩ [0, 1, 65, 0, 1, 66, 1, 67, 6, 64] = some (true, [65]) :=
  ⟨by decide, by decide,
    (unfinished_codeword_accepted ⟨0, 0, 0⟩ [0, 1, 65, 0, 1, 66, 1, 67, 6, 64]
      (node 0 0 (node 65 0 null null) (node 0 0 (node 66 0 null null) (node 67 0 null null)))
      ⟨[0, 1, 65, 0, 1, 66, 1, 67, 6, 64], 8, false, false⟩ (by decide) (by decide)).2
      (node 0 0 (node 66 0 null null) (node 67 0 null null)) [65] (by decide)⟩

/-! ## `readTree` on arbitrary streams -/

/-- A call of `readTree` on a good stream at the end of the file returns some tree and
leaves the stream at the same position with `eofbit` and `failbit` set. -/
theorem readTreeFuel_at_end_state (junk : Junk) (fuel : Nat) (bytes : List Nat) (pos : Nat)
    (hget : bytes[pos]? = none) :
    ∃ t, readTreeFuel junk (fuel + 2) ⟨bytes, pos, false, false⟩ =
      some (t, ⟨bytes, pos, true, true⟩) := by
  by_cases h1 : junk.marker = 1
  · refine ⟨node junk.data 0 null null, ?_⟩
    simp [readTreeFuel, IStream.good, IStream.eof, IStream.get, hget, h1, LEAF_NODE_MARKER]
  · by_cases h0 : junk.marker = 0
    · refine ⟨node 0 0 null null, ?_⟩
      simp [readTreeFuel, IStream.good, IStream.eof, IStream.get, hget, h0, LEAF_NODE_MARKER,
        INTERNAL_NODE_MARKER]
    · refine ⟨null, ?_⟩
      simp [readTreeFuel, IStream.good, IStream.eof, IStream.get, hget, h1, h0, LEAF_NODE_MARKER,
        INTERNAL_NODE_MARKER]

theorem get_of_getElem? (bytes : List Nat) (pos b old : Nat) (h : bytes[pos]? = some b) :
    IStream.get ⟨bytes, pos, false, false⟩ old = (b, ⟨bytes, pos + 1, false, false⟩) := by
  simp [IStream.get, IStream.good, h]

theorem get_of_getElem?_none (bytes : List Nat) (pos old : Nat) (h : bytes[pos]? = none) :
    IStream.get ⟨bytes, pos, false, false⟩ old = (old, ⟨bytes, pos, true, true⟩) := by
  simp [IStream.get, IStream.good, h]

/-- Two runs of `readTree` on the same stream that differ only in what the uninitialised
locals hold: both return, and either they return the same tree and stream, or both leave
the stream failed. The stream keeps its bytes and its position does not move back or
past the end. -/
theorem readTreeFuel_junk (j1 j2 : Junk) :
    ∀ (fuel : Nat) (s : IStream), s.pos ≤ s.bytes.length → s.bytes.length - s.pos + 2 ≤ fuel →
      ∃ t1 s1 t2 s2, readTreeFuel j1 fuel s = some (t1, s1) ∧
        readTreeFuel j2 fuel s = some (t2, s2) ∧
        s1.bytes = s.bytes ∧ s2.bytes = s.bytes ∧
        s.pos ≤ s1.pos ∧ s1.pos ≤ s.bytes.length ∧ s.pos ≤ s2.pos ∧ s2.pos ≤ s.bytes.length ∧
        ((t1 = t2 ∧ s1 = s2) ∨ (s1.failbit = true ∧ s2.failbit = true)) := by
  intro fuel
  induction fuel with
  | zero => intro s _ h; omega
  | succ fuel ih =>
    intro s hpos hfuel
    obtain ⟨bytes, pos, e, f⟩ := s
    simp only at hpos hfuel
    by_cases hbad : (!(IStream.good ⟨bytes, pos, e, f⟩) || IStream.eof ⟨bytes, pos, e, f⟩) = true
    · refine ⟨null, ⟨bytes, pos, e, f⟩, null, ⟨bytes, pos, e, f⟩, ?_, ?_, rfl, rfl, le_refl _,
        hpos, le_refl _, hpos, Or.inl ⟨rfl, rfl⟩⟩ <;> simp [readTreeFuel, hbad]
    · have he : e = false := by
        cases e <;> simp [IStream.good, IStream.eof] at hbad ⊢
      have hf : f = false := by
        cases f <;> simp [IStream.good, IStream.eof, he] at hbad ⊢
      subst he hf
      obtain ⟨fuel, rfl⟩ : ∃ n, fuel = n + 1 := ⟨fuel - 1, by omega⟩
      cases hget : bytes[pos]? with
      | none =>
        obtain ⟨t1, ht1⟩ := readTreeFuel_at_end_state j1 fuel bytes pos hget
        obtain ⟨t2, ht2⟩ := readTreeFuel_at_end_state j2 fuel bytes pos hget
        exact ⟨t1, _, t2, _, ht1, ht2, rfl, rfl, le_refl _, hpos, le_refl _, hpos,
          Or.inr ⟨rfl, rfl⟩⟩
      | some b =>
        have hlt : pos < bytes.length := by
          by_contra hc
          rw [List.getElem?_eq_none_iff.mpr (by omega)] at hget
          simp at hget
        have hg1 := get_of_getElem? bytes pos b j1.marker hget
        have hg2 := get_of_getElem? bytes pos b j2.marker hget
        by_cases hb1 : b = 1
        · subst hb1
          cases hget2 : bytes[pos + 1]? with
          | none =>
            have hd1 := get_of_getElem?_none bytes (pos + 1) j1.data hget2
            have hd2 := get_of_getElem?_none bytes (pos + 1) j2.data hget2
            refine ⟨node j1.data 0 null null, ⟨bytes, pos + 1, true, true⟩,
              node j2.data 0 null null, ⟨bytes, pos + 1, true, true⟩, ?_, ?_, rfl, rfl,
              (by first | omega | (simp only; omega)), (by first | omega | (simp only; omega)), (by first | omega | (simp only; omega)), (by first | omega | (simp only; omega)), Or.inr ⟨rfl, rfl⟩⟩
            · simp [readTreeFuel, IStream.good, IStream.eof, hg1, hd1, LEAF_NODE_MARKER]
            · simp [readTreeFuel, IStream.good, IStream.eof, hg2, hd2, LEAF_NODE_MARKER]
          | some d =>
            have hlt2 : pos + 1 < bytes.length := by
              by_contra hc
              rw [List.getElem?_eq_none_iff.mpr (by omega)] at hget2
              simp at hget2
            have hd1 := get_of_getElem? bytes (pos + 1) d j1.data hget2
            have hd2 := get_of_getElem? bytes (pos + 1) d j2.data hget2
            refine ⟨node d 0 null null, ⟨bytes, pos + 1 + 1, false, false⟩,
              node d 0 null null, ⟨bytes, pos + 1 + 1, false, false⟩, ?_, ?_, rfl, rfl,
              (by first | omega | (simp only; omega)), (by first | omega | (simp only; omega)), (by first | omega | (simp only; omega)), (by first | omega | (simp only; omega)), Or.inl ⟨rfl, rfl⟩⟩
            · simp [readTreeFuel, IStream.good, IStream.eof, hg1, hd1, LEAF_NODE_MARKER]
            · simp [readTreeFuel, IStream.good, IStream.eof, hg2, hd2, LEAF_NODE_MARKER]
        · by_cases hb0 : b = 0
          · subst hb0
            obtain ⟨l1, sl1, l2, sl2, hl1, hl2, hbl1, hbl2, hp1, hq1, hp2, hq2, hcase⟩ :=
              ih ⟨bytes, pos + 1, false, false⟩ (by first | omega | (simp only; omega)) (by first | omega | (simp only; omega))
            simp only at hbl1 hbl2 hp1 hq1 hp2 hq2
            rcases hcase with ⟨hteq, hseq⟩ | ⟨hfl1, hfl2⟩
            · subst hteq hseq
              obtain ⟨r1, sr1, r2, sr2, hr1, hr2, hbr1, hbr2, hp3, hq3, hp4, hq4, hcase2⟩ :=
                ih sl1 (by rw [hbl1]; exact hq1) (by rw [hbl1]; omega)
              rw [hbl1] at hbr1 hbr2 hq3 hq4
              refine ⟨node 0 0 l1 r1, sr1, node 0 0 l1 r2, sr2, ?_, ?_, hbr1, hbr2,
                (by first | omega | (simp only; omega)), hq3, (by first | omega | (simp only; omega)), hq4, ?_⟩
              · rw [readTreeFuel]
                simp [IStream.good, IStream.eof, hg1, hl1, hr1, LEAF_NODE_MARKER,
                  INTERNAL_NODE_MARKER]
              · rw [readTreeFuel]
                simp [IStream.good, IStream.eof, hg2, hl2, hr2, LEAF_NODE_MARKER,
                  INTERNAL_NODE_MARKER]
              · rcases hcase2 with ⟨h1, h2⟩ | h
                · left; exact ⟨by rw [h1], h2⟩
                · right; exact h
            · have hr1 := readTreeFuel_of_failed j1 fuel sl1 hfl1
              have hr2 := readTreeFuel_of_failed j2 fuel sl2 hfl2
              refine ⟨node 0 0 l1 null, sl1, node 0 0 l2 null, sl2, ?_, ?_, hbl1, hbl2,
                (by first | omega | (simp only; omega)), hq1, (by first | omega | (simp only; omega)), hq2, Or.inr ⟨hfl1, hfl2⟩⟩
              · rw [readTreeFuel]
                simp [IStream.good, IStream.eof, hg1, hl1, hr1, LEAF_NODE_MARKER,
                  INTERNAL_NODE_MARKER]
              · rw [readTreeFuel]
                simp [IStream.good, IStream.eof, hg2, hl2, hr2, LEAF_NODE_MARKER,
                  INTERNAL_NODE_MARKER]
          · refine ⟨null, ⟨bytes, pos + 1, false, false⟩, null, ⟨bytes, pos + 1, false, false⟩,
              ?_, ?_, rfl, rfl, (by first | omega | (simp only; omega)), (by first | omega | (simp only; omega)), (by first | omega | (simp only; omega)), (by first | omega | (simp only; omega)),
              Or.inl ⟨rfl, rfl⟩⟩
            · simp [readTreeFuel, IStream.good, IStream.eof, hg1, hb1, hb0, LEAF_NODE_MARKER,
                INTERNAL_NODE_MARKER]
            · simp [readTreeFuel, IStream.good, IStream.eof, hg2, hb1, hb0, LEAF_NODE_MARKER,
                INTERNAL_NODE_MARKER]

end Huffman

namespace Huffman
open HuffmanNode

/-- The method `readTree` returns on every file; the stream keeps the bytes of the file and
its position stays within the file. -/
theorem readTree_total (junk : Junk) (file : List Nat) :
    ∃ t s, readTree junk (IStream.openFile file) = some (t, s) ∧ s.bytes = file ∧
      s.pos ≤ file.length := by
  obtain ⟨t1, s1, -, -, h1, -, hb, -, -, hq, -, -, -⟩ :=
    readTreeFuel_junk junk junk (file.length + 2) (IStream.openFile file)
      (by simp [IStream.openFile]) (by simp [IStream.openFile])
  exact ⟨t1, s1, h1, hb, hq⟩

/-- The participating bits do not depend on what the uninitialised `paddingBits` holds: it
is read only when the stream has failed, and then no byte is walked. -/
theorem participatingBits_junk (j1 j2 : Junk) (s : IStream) :
    participatingBits j1 s = participatingBits j2 s := by
  obtain ⟨bytes, pos, e, f⟩ := s
  cases e <;> cases f
  · cases hget : bytes[pos]? with
    | some b => simp [participatingBits, IStream.get, IStream.good, hget]
    | none =>
      simp [participatingBits, IStream.get, hget, IStream.tellg, IStream.seekgEnd,
        IStream.seekg, IStream.remaining, IStream.good, loopBits]
  all_goals
    simp [participatingBits, IStream.get, IStream.tellg, IStream.seekgEnd,
      IStream.seekg, IStream.remaining, IStream.good, loopBits]

/-- The result of `decompressFile` does not depend on what the uninitialised locals hold. -/
theorem decompressFile_junk (j1 j2 : Junk) (file : List Nat) :
    decompressFile j1 file = decompressFile j2 file := by
  obtain ⟨t1, s1, t2, s2, h1, h2, -, -, -, -, -, -, hcase⟩ :=
    readTreeFuel_junk j1 j2 (file.length + 2) (IStream.openFile file)
      (by simp [IStream.openFile]) (by simp [IStream.openFile])
  rcases hcase with ⟨ht, hs⟩ | ⟨hf1, hf2⟩
  · subst ht hs
    by_cases hnull : t1.isNull = true
    · have e1 : readTree j1 (IStream.openFile file) = some (t1, s1) := h1
      have e2 : readTree j2 (IStream.openFile file) = some (t1, s1) := h2
      simp [decompressFile, e1, e2, hnull]
    · have hnull2 : t1.isNull = false := by simpa using hnull
      rw [decompressFile_eq_walk j1 file t1 s1 h1 hnull2,
        decompressFile_eq_walk j2 file t1 s1 h2 hnull2, participatingBits_junk j1 j2 s1]
  · rw [decompressFile_of_failed j1 file t1 s1 h1 hf1, decompressFile_of_failed j2 file t2 s2 h2 hf2]

/-- The method `decompressFile` returns on every file. -/
theorem decompressFile_total (junk : Junk) (file : List Nat) :
    ∃ r, decompressFile junk file = some r := by
  obtain ⟨t, s, h, -, -⟩ := readTree_total junk file
  by_cases hnull : t.isNull = true
  · exact ⟨(true, []), by simp [decompressFile, h, hnull]⟩
  · exact ⟨_, decompressFile_eq_walk junk file t s h (by simpa using hnull)⟩

/-! ## Calls on an object -/

theorem compressFileOn_result (top : TopPolicy) (self : Members) (input : List Nat) :
    (compressFileOn top self input).1 = compressFile top input := by
  simp only [compressFileOn, compressFile, buildFrequencyMapOn, buildHuffmanTreeOn,
    generateHuffmanCodesOn, buildFrequencyMap]
  split_ifs <;> rfl

theorem decompressFileOn_result (junk : Junk) (self : Members) (file : List Nat) :
    (decompressFileOn junk self file).map Prod.fst = decompressFile junk file := by
  simp only [decompressFileOn, decompressFile]
  rcases readTree junk (IStream.openFile file) with _ | ⟨root, ifs⟩
  · rfl
  · simp only []
    split_ifs <;> rfl

/-- C12. Determinism and statelessness: the return value and the output of `compressFile`
are the same for any two prior states of the object, so compressing the same input twice
with one object gives the same output; the return value and the output of
`decompressFile` are the same for any two prior states of the object and for any values
of the uninitialised locals, and `decompressFile` always returns. -/
theorem calls_are_stateless (top : TopPolicy) (j1 j2 : Junk) (self1 self2 : Members)
    (input file : List Nat) :
    (compressFileOn top self1 input).1 = (compressFileOn top self2 input).1 ∧
      (compressFileOn top (compressFileOn top self1 input).2 input).1
        = (compressFileOn top self1 input).1 ∧
      (decompressFileOn j1 self1 file).map Prod.fst
        = (decompressFileOn j2 self2 file).map Prod.fst ∧
      ∃ r, (decompressFileOn j1 self1 file).map Prod.fst = some r := by
  refine ⟨?_, ?_, ?_, ?_⟩
  · rw [compressFileOn_result, compressFileOn_result]
  · rw [compressFileOn_result, compressFileOn_result]
  · rw [decompressFileOn_result, decompressFileOn_result, decompressFile_junk j1 j2]
  · rw [decompressFileOn_result]
    exact decompressFile_total j1 file

/-! ## Codes as paths -/

theorem leafCodes_eq_leafPaths (t : HuffmanNode) :
    ∀ cur : List Bool, (isLeaf t = false ∨ cur ≠ []) →
      leafCodes t cur = (leafPaths t).map (fun e => (e.1, cur ++ e.2)) := by
  induction t with
  | null => intro cur _; rfl
  | node d f l r ihl ihr =>
    intro cur h
    by_cases hleaf : (l.isNull && r.isNull) = true
    · have hcur : cur ≠ [] := by
        rcases h with h | h
        · simp [isLeaf, hleaf] at h
        · exact h
      simp [leafCodes, leafPaths, hleaf, hcur]
    · simp only [leafCodes, leafPaths, hleaf, if_false, Bool.false_eq_true, List.map_append,
        List.map_map]
      rw [ihl (cur ++ [false]) (Or.inr (by simp)), ihr (cur ++ [true]) (Or.inr (by simp))]
      congr 1 <;> · apply List.map_congr_left; intro e _; simp

theorem leafPaths_keys (t : HuffmanNode) :
    (leafPaths t).map Prod.fst = (leaves t).map Prod.fst := by
  induction t with
  | null => rfl
  | node d f l r ihl ihr =>
    by_cases hleaf : (l.isNull && r.isNull) = true
    · simp [leafPaths, leaves, hleaf]
    · simp only [leafPaths, leaves, hleaf, if_false, Bool.false_eq_true, List.map_append,
        List.map_map, ← ihl, ← ihr]
      congr 1

theorem leafCodes_keys (t : HuffmanNode) (cur : List Bool) :
    (leafCodes t cur).map Prod.fst = (leaves t).map Prod.fst := by
  induction t generalizing cur with
  | null => rfl
  | node d f l r ihl ihr =>
    by_cases hleaf : (l.isNull && r.isNull) = true
    · simp [leafCodes, leaves, hleaf]
    · simp [leafCodes, leaves, hleaf, ihl, ihr]

theorem isNull_eq_false_of_mem_leafPaths {t : HuffmanNode} {e : Nat × List Bool}
    (h : e ∈ leafPaths t) : t.isNull = false := by
  cases t with
  | null => simp [leafPaths] at h
  | node _ _ _ _ => rfl

/-- Following the path of a leaf from the root ends at that leaf; the path is empty only
when the root is the leaf. -/
theorem follow_leafPaths (t : HuffmanNode) :
    ∀ x c, (x, c) ∈ leafPaths t →
      (∃ f, follow t c = node x f null null) ∧ (isLeaf t = false → c ≠ []) := by
  induction t with
  | null => intro x c h; simp [leafPaths] at h
  | node d f l r ihl ihr =>
    intro x c h
    by_cases hleaf : (l.isNull && r.isNull) = true
    · simp only [leafPaths, hleaf, if_true, List.mem_singleton, Prod.mk.injEq] at h
      obtain ⟨rfl, rfl⟩ := h
      simp only [Bool.and_eq_true] at hleaf
      have hl : l = null := by cases l <;> simp_all [isNull]
      have hr : r = null := by cases r <;> simp_all [isNull]
      subst hl hr
      exact ⟨⟨f, rfl⟩, by simp [isLeaf, isNull]⟩
    · simp only [leafPaths, hleaf, if_false, Bool.false_eq_true, List.mem_append, List.mem_map,
        Prod.mk.injEq] at h
      rcases h with ⟨e, he, rfl, rfl⟩ | ⟨e, he, rfl, rfl⟩
      · obtain ⟨hf, -⟩ := ihl e.1 e.2 he
        exact ⟨by simpa [follow, left] using hf, fun _ => by simp⟩
      · obtain ⟨hf, -⟩ := ihr e.1 e.2 he
        exact ⟨by simpa [follow, right] using hf, fun _ => by simp⟩

/-- The bit walk along the path of a leaf, started at a node that is not a leaf: the leaf's
byte is put and the walk goes on from the root. -/
theorem walkBits_leafPath (root : HuffmanNode) (rest : List Bool) (cur : HuffmanNode) :
    ∀ x c, (x, c) ∈ leafPaths cur → isLeaf cur = false →
      walkBits root (c ++ rest) cur = ((walkBits root rest root).1, x :: (walkBits root rest root).2) := by
  induction cur with
  | null => intro x c h; simp [leafPaths] at h
  | node d f l r ihl ihr =>
    intro x c h hnl
    have hleaf : ¬ (l.isNull && r.isNull) = true := by simpa [isLeaf] using hnl
    simp only [leafPaths, hleaf, if_false, Bool.false_eq_true, List.mem_append, List.mem_map,
      Prod.mk.injEq] at h
    have hL : (node d f l r).left = l := rfl
    have hR : (node d f l r).right = r := rfl
    rcases h with ⟨e, he, rfl, rfl⟩ | ⟨e, he, rfl, rfl⟩
    · have hnn := isNull_eq_false_of_mem_leafPaths he
      rw [List.cons_append]
      simp only [walkBits, if_true, hL, hnn, Bool.false_eq_true, if_false]
      by_cases hl : isLeaf l = true
      · cases l with
        | null => simp [isNull] at hnn
        | node ld lf ll lr =>
          have hl2 : (ll.isNull && lr.isNull) = true := by simpa [isLeaf] using hl
          simp only [leafPaths, hl2, if_true, List.mem_singleton] at he
          subst he
          simp [left, right, hl2, data]
      · have hl2 : isLeaf l = false := by simpa using hl
        have hl3 : ¬ (l.left.isNull && l.right.isNull) = true := by
          cases l with
          | null => simp [isNull] at hnn
          | node ld lf ll lr => simpa [isLeaf, left, right] using hl2
        simp only [hl3, if_false]
        exact ihl e.1 e.2 he hl2
    · have hnn := isNull_eq_false_of_mem_leafPaths he
      rw [List.cons_append]
      simp only [walkBits, hR, hnn, Bool.false_eq_true, if_false, Bool.true_eq_false]
      by_cases hr : isLeaf r = true
      · cases r with
        | null => simp [isNull] at hnn
        | node rd rf rl rr =>
          have hr2 : (rl.isNull && rr.isNull) = true := by simpa [isLeaf] using hr
          simp only [leafPaths, hr2, if_true, List.mem_singleton] at he
          subst he
          simp [left, right, hr2, data]
      · have hr2 : isLeaf r = false := by simpa using hr
        have hr3 : ¬ (r.left.isNull && r.right.isNull) = true := by
          cases r with
          | null => simp [isNull] at hnn
          | node rd rf rl rr => simpa [isLeaf, left, right] using hr2
        simp only [hr3, if_false]
        exact ihr e.1 e.2 he hr2

end Huffman

namespace Huffman
open HuffmanNode

theorem mapAssign_keys {α : Type} (m : List (Nat × α)) (k : Nat) (v : α) (x : Nat) :
    x ∈ (mapAssign m k v).map Prod.fst ↔ x = k ∨ x ∈ m.map Prod.fst := by
  induction m with
  | nil => simp [mapAssign]
  | cons e rest ih =>
    obtain ⟨k', v'⟩ := e
    simp only [mapAssign]
    by_cases h1 : k < k'
    · simp [h1]
    · by_cases h2 : k = k'
      · subst h2; simp
      · simp only [h1, h2, if_false, List.map_cons, List.mem_cons, ih]
        tauto

theorem foldl_mapAssign_keys (entries m : List (Nat × List Bool)) (x : Nat) :
    x ∈ (entries.foldl (fun m e => mapAssign m e.1 e.2) m).map Prod.fst ↔
      x ∈ m.map Prod.fst ∨ x ∈ entries.map Prod.fst := by
  induction entries generalizing m with
  | nil => simp
  | cons e rest ih =>
    rw [List.foldl_cons, ih, mapAssign_keys]
    simp only [List.map_cons, List.mem_cons]
    tauto

theorem mapFind_foldl_of_not_mem (entries m : List (Nat × List Bool)) (k : Nat)
    (h : k ∉ entries.map Prod.fst) :
    mapFind (entries.foldl (fun m e => mapAssign m e.1 e.2) m) k = mapFind m k := by
  induction entries generalizing m with
  | nil => rfl
  | cons e rest ih =>
    simp only [List.map_cons, List.mem_cons, not_or] at h
    rw [List.foldl_cons, ih _ h.2, mapFind_mapAssign]
    simp [h.1]

/-- After assignments to pairwise different keys each key holds the value assigned to
it. -/
theorem mapFind_foldl_of_mem (entries m : List (Nat × List Bool)) (k : Nat) (c : List Bool)
    (hnodup : (entries.map Prod.fst).Nodup) (h : (k, c) ∈ entries) :
    mapFind (entries.foldl (fun m e => mapAssign m e.1 e.2) m) k = some c := by
  induction entries generalizing m with
  | nil => simp at h
  | cons e rest ih =>
    simp only [List.map_cons, List.nodup_cons] at hnodup
    rw [List.foldl_cons]
    rcases List.mem_cons.mp h with h | h
    · subst h
      rw [mapFind_foldl_of_not_mem _ _ _ hnodup.1, mapFind_mapAssign]
      simp
    · exact ih _ hnodup.2 h

/-- The code table of a tree whose root is not a leaf and whose leaves hold pairwise
different bytes: each leaf byte is mapped to the path of its leaf. -/
theorem mapFind_generateHuffmanCodes (t : HuffmanNode) (hroot : isLeaf t = false)
    (hnodup : ((leaves t).map Prod.fst).Nodup) (x : Nat) (c : List Bool)
    (h : (x, c) ∈ leafPaths t) :
    mapFind (generateHuffmanCodes t [] []) x = some c := by
  rw [generateHuffmanCodes_eq]
  apply mapFind_foldl_of_mem
  · rw [leafCodes_keys]; exact hnodup
  · rw [leafCodes_eq_leafPaths t [] (Or.inl hroot)]
    exact List.mem_map.mpr ⟨(x, c), h, by simp⟩

/-- Every entry of the code table of a tree whose root is not a leaf is the path of a
leaf. -/
theorem mem_leafPaths_of_mapFind (t : HuffmanNode) (hroot : isLeaf t = false) (x : Nat)
    (c : List Bool) (h : mapFind (generateHuffmanCodes t [] []) x = some c) :
    (x, c) ∈ leafPaths t := by
  rw [generateHuffmanCodes_eq] at h
  have h2 := (mapFind_foldl_mem _ _ _ _ h).resolve_right (by simp [mapFind])
  rw [leafCodes_eq_leafPaths t [] (Or.inl hroot)] at h2
  obtain ⟨e, he, heq⟩ := List.mem_map.mp h2
  simp only [List.nil_append, Prod.mk.injEq] at heq
  obtain ⟨rfl, rfl⟩ := heq
  exact he

/-- C18. Codes are tree paths: for a tree whose leaves hold pairwise different bytes and
whose root is not a leaf, the keys of the table of `generateHuffmanCodes(root, "")` are
exactly the leaf bytes, and each leaf byte is mapped to the non-empty path of left (0) and
right (1) steps from the root to its leaf: following the code from the root ends at that
leaf, and the bit walk of the decoder along the code puts that byte and is back at the
root. -/
theorem codes_are_tree_paths (t : HuffmanNode) (hroot : isLeaf t = false)
    (hnodup : ((leaves t).map Prod.fst).Nodup) :
    (∀ x, x ∈ (generateHuffmanCodes t [] []).map Prod.fst ↔ x ∈ (leaves t).map Prod.fst) ∧
      ∀ x, x ∈ (leaves t).map Prod.fst →
        ∃ c, mapFind (generateHuffmanCodes t [] []) x = some c ∧ (x, c) ∈ leafPaths t ∧
          c ≠ [] ∧ (∃ f, follow t c = node x f null null) ∧
          walkBits t c t = (some t, [x]) := by
  constructor
  · intro x
    rw [generateHuffmanCodes_eq, foldl_mapAssign_keys, leafCodes_keys]
    simp
  · intro x hx
    rw [← leafPaths_keys] at hx
    obtain ⟨e, he, rfl⟩ := List.mem_map.mp hx
    obtain ⟨hf, hne⟩ := follow_leafPaths t e.1 e.2 he
    refine ⟨e.2, mapFind_generateHuffmanCodes t hroot hnodup e.1 e.2 he, he, hne hroot, hf, ?_⟩
    have := walkBits_leafPath t [] t e.1 e.2 he hroot
    simpa [walkBits] using this

theorem codes_are_tree_paths_witness :
    isLeaf (node 0 6 (node 1 3 null null) (node 0 3 (node 3 1 null null) null)) = false ∧
      ((leaves (node 0 6 (node 1 3 null null) (node 0 3 (node 3 1 null null) null))).map
        Prod.fst).Nodup ∧
      ((∀ x, x ∈ (generateHuffmanCodes
            (node 0 6 (node 1 3 null null) (node 0 3 (node 3 1 null null) null)) [] []).map Prod.fst
          ↔ x ∈ (leaves (node 0 6 (node 1 3 null null) (node 0 3 (node 3 1 null null) null))).map
            Prod.fst) ∧
        ∀ x, x ∈ (leaves (node 0 6 (node 1 3 null null) (node 0 3 (node 3 1 null null) null))).map
            Prod.fst →
          ∃ c, mapFind (generateHuffmanCodes
              (node 0 6 (node 1 3 null null) (node 0 3 (node 3 1 null null) null)) [] []) x = some c ∧
            (x, c) ∈ leafPaths (node 0 6 (node 1 3 null null) (node 0 3 (node 3 1 null null) null)) ∧
            c ≠ [] ∧
            (∃ f, follow (node 0 6 (node 1 3 null null) (node 0 3 (node 3 1 null null) null)) c
              = node x f null null) ∧
            walkBits (node 0 6 (node 1 3 null null) (node 0 3 (node 3 1 null null) null)) c
              (node 0 6 (node 1 3 null null) (node 0 3 (node 3 1 null null) null))
              = (some (node 0 6 (node 1 3 null null) (node 0 3 (node 3 1 null null) null)), [x])) :=
  ⟨by decide, by decide,
    codes_are_tree_paths (node 0 6 (node 1 3 null null) (node 0 3 (node 3 1 null null) null))
      (by decide) (by decide)⟩

/-! ## Shape of the tree and length of the codes -/

/-- C14. Single-symbol wrapping: for a frequency table with the single entry `(b, f)`,
`buildHuffmanTree` yields an internal root whose left child is the leaf for `b` and whose
right child is absent, and `generateHuffmanCodes` on it yields the table that maps `b` to
the one-bit code `0` and has no other entry. -/
theorem single_symbol_wrapping (top : TopPolicy) (hv : ValidTop top) (b f : Nat) :
    buildHuffmanTree top [(b, f)] = node 0 f (node b f null null) null ∧
      generateHuffmanCodes (buildHuffmanTree top [(b, f)]) [] [] = [(b, [false])] := by
  rw [buildHuffmanTree_single top hv]
  exact ⟨rfl, by simp [generateHuffmanCodes, isNull, mapAssign]⟩

theorem single_symbol_wrapping_witness :
    ValidTop firstMin ∧
      buildHuffmanTree firstMin [(0x41, 1000)] = node 0 1000 (node 0x41 1000 null null) null ∧
      generateHuffmanCodes (buildHuffmanTree firstMin [(0x41, 1000)]) [] [] = [(0x41, [false])] :=
  ⟨firstMin_valid, single_symbol_wrapping firstMin firstMin_valid 0x41 1000⟩

theorem nodup_keys_of_mapSorted {α : Type} (m : List (Nat × α)) (h : MapSorted m) :
    (m.map Prod.fst).Nodup :=
  List.Pairwise.imp (fun hab => Nat.ne_of_lt hab) h

/-- C17. Tree shape invariant: for a frequency table with at least two entries the tree of
`buildHuffmanTree` has no node with exactly one child (every node has two children or
none), its leaves are the table entries in some order, and each byte value of the table
is the `data` of exactly one leaf. -/
theorem tree_shape_invariant (top : TopPolicy) (hv : ValidTop top)
    (frequencies : List (Nat × Nat)) (hs : MapSorted frequencies)
    (hlen : 2 ≤ frequencies.length) :
    isFull (buildHuffmanTree top frequencies) = true ∧
      List.Perm (leaves (buildHuffmanTree top frequencies)) frequencies ∧
      ∀ e ∈ frequencies,
        ((leaves (buildHuffmanTree top frequencies)).map Prod.fst).count e.1 = 1 := by
  obtain ⟨hfull, hperm⟩ := buildHuffmanTree_shape top hv frequencies hlen
  refine ⟨hfull, hperm, ?_⟩
  intro e he
  have hnodup : ((leaves (buildHuffmanTree top frequencies)).map Prod.fst).Nodup :=
    ((hperm.map Prod.fst).nodup_iff).mpr (nodup_keys_of_mapSorted frequencies hs)
  apply List.count_eq_one_of_mem hnodup
  exact (hperm.map Prod.fst).symm.subset (List.mem_map.mpr ⟨e, he, rfl⟩)

theorem tree_shape_invariant_witness :
    ValidTop firstMin ∧ MapSorted [(1, 3), (2, 2), (3, 1)] ∧
      2 ≤ ([(1, 3), (2, 2), (3, 1)] : List (Nat × Nat)).length ∧
      isFull (buildHuffmanTree firstMin [(1, 3), (2, 2), (3, 1)]) = true ∧
      List.Perm (leaves (buildHuffmanTree firstMin [(1, 3), (2, 2), (3, 1)]))
        [(1, 3), (2, 2), (3, 1)] ∧
      ∀ e ∈ [(1, 3), (2, 2), (3, 1)],
        ((leaves (buildHuffmanTree firstMin [(1, 3), (2, 2), (3, 1)])).map Prod.fst).count e.1 = 1 :=
  ⟨firstMin_valid, by simp [MapSorted], by decide,
    tree_shape_invariant firstMin firstMin_valid [(1, 3), (2, 2), (3, 1)] (by simp [MapSorted])
      (by decide)⟩

theorem leaves_ne_nil_of_isFull (u : HuffmanNode) (h : isFull u = true) :
    1 ≤ (leaves u).length := by
  induction u with
  | null => simp [isFull] at h
  | node d f l r ihl _ =>
    by_cases hleaf : (l.isNull && r.isNull) = true
    · simp [leaves, hleaf]
    · simp only [isFull, hleaf, Bool.false_or, Bool.and_eq_true] at h
      have := ihl h.1
      simp only [leaves, hleaf, if_false, Bool.false_eq_true, List.length_append]
      omega

/-- In a tree whose internal nodes all have two children a path to a leaf is shorter than
the number of leaves. -/
theorem leafPaths_length_lt (u : HuffmanNode) (h : isFull u = true) :
    ∀ x c, (x, c) ∈ leafPaths u → c.length + 1 ≤ (leaves u).length := by
  induction u with
  | null => simp [isFull] at h
  | node d f l r ihl ihr =>
    intro x c hc
    by_cases hleaf : (l.isNull && r.isNull) = true
    · simp only [leafPaths, hleaf, if_true, List.mem_singleton, Prod.mk.injEq] at hc
      simp [leaves, hleaf, hc.2]
    · simp only [isFull, hleaf, Bool.false_or, Bool.and_eq_true] at h
      have hl1 := leaves_ne_nil_of_isFull l h.1
      have hr1 := leaves_ne_nil_of_isFull r h.2
      simp only [leafPaths, hleaf, if_false, Bool.false_eq_true, List.mem_append, List.mem_map,
        Prod.mk.injEq] at hc
      simp only [leaves, hleaf, if_false, Bool.false_eq_true, List.length_append]
      rcases hc with ⟨e, he, rfl, rfl⟩ | ⟨e, he, rfl, rfl⟩
      · have := ihl h.1 e.1 e.2 he
        simp only [List.length_cons]; omega
      · have := ihr h.2 e.1 e.2 he
        simp only [List.length_cons]; omega

theorem isLeaf_eq_false_of_leaves (u : HuffmanNode) (h : 2 ≤ (leaves u).length) :
    isLeaf u = false := by
  cases u with
  | null => rfl
  | node d f l r =>
    by_cases hleaf : (l.isNull && r.isNull) = true
    · simp [leaves, hleaf] at h
    · simpa [isLeaf] using hleaf

/-- C19. Code length bound: for a frequency table with `n ≥ 2` entries every code generated
from the tree of `buildHuffmanTree` has length at least 1 and at most `n - 1`, hence at
most 255 when `n ≤ 256`. -/
theorem code_length_bound (top : TopPolicy) (hv : ValidTop top) (frequencies : List (Nat × Nat))
    (hlen : 2 ≤ frequencies.length) (x : Nat) (c : List Bool)
    (hc : mapFind (generateHuffmanCodes (buildHuffmanTree top frequencies) [] []) x = some c) :
    1 ≤ c.length ∧ c.length ≤ frequencies.length - 1 ∧
      (frequencies.length ≤ 256 → c.length ≤ 255) := by
  obtain ⟨hfull, hperm⟩ := buildHuffmanTree_shape top hv frequencies hlen
  have hn := hperm.length_eq
  have hroot := isLeaf_eq_false_of_leaves (buildHuffmanTree top frequencies) (by omega)
  have hmem := mem_leafPaths_of_mapFind _ hroot x c hc
  have h1 := leafPaths_length_lt _ hfull x c hmem
  have h2 := (follow_leafPaths _ x c hmem).2 hroot
  have h3 : 0 < c.length := List.length_pos.mpr h2
  refine ⟨h3, by omega, fun _ => by omega⟩

theorem code_length_bound_witness :
    ValidTop firstMin ∧ 2 ≤ ([(1, 3), (2, 2), (3, 1)] : List (Nat × Nat)).length ∧
      mapFind (generateHuffmanCodes (buildHuffmanTree firstMin [(1, 3), (2, 2), (3, 1)]) [] []) 3
        = some [true, false] ∧
      1 ≤ [true, false].length ∧
      [true, false].length ≤ ([(1, 3), (2, 2), (3, 1)] : List (Nat × Nat)).length - 1 ∧
      (([(1, 3), (2, 2), (3, 1)] : List (Nat × Nat)).length ≤ 256 → [true, false].length ≤ 255) :=
  ⟨firstMin_valid, by decide, by decide,
    code_length_bound firstMin firstMin_valid [(1, 3), (2, 2), (3, 1)] (by decide) 3 [true, false]
      (by decide)⟩

/-! ## Round trip -/

theorem skeleton_isNull (t : HuffmanNode) : (skeleton t).isNull = t.isNull := by
  cases t with
  | null => rfl
  | node d f l r =>
    simp only [skeleton]
    split_ifs <;> rfl

theorem skeleton_leafPaths (t : HuffmanNode) : leafPaths (skeleton t) = leafPaths t := by
  induction t with
  | null => rfl
  | node d f l r ihl ihr =>
    by_cases hleaf : (l.isNull && r.isNull) = true
    · simp only [skeleton, hleaf, if_true, leafPaths]
      rfl
    · simp only [skeleton, hleaf, if_false, Bool.false_eq_true, leafPaths, skeleton_isNull,
        ihl, ihr]

theorem skeleton_isLeaf (t : HuffmanNode) : isLeaf (skeleton t) = isLeaf t := by
  cases t with
  | null => rfl
  | node d f l r =>
    by_cases hleaf : (l.isNull && r.isNull) = true
    · simp only [skeleton, hleaf, if_true, isLeaf]
      rfl
    · simp only [skeleton, hleaf, if_false, Bool.false_eq_true, isLeaf, skeleton_isNull]

/-- The bit walk over the concatenated paths of a sequence of leaf bytes, from the root of
a tree whose root is not a leaf, puts exactly these bytes and ends at the root. -/
theorem walkBits_flatMap (u : HuffmanNode) (hroot : isLeaf u = false) (code : Nat → List Bool)
    (input : List Nat) (h : ∀ x ∈ input, (x, code x) ∈ leafPaths u) :
    walkBits u (input.flatMap code) u = (some u, input) := by
  induction input with
  | nil => rfl
  | cons x rest ih =>
    rw [List.flatMap_cons, walkBits_leafPath u _ u x (code x) (h x (by simp)) hroot,
      ih (fun y hy => h y (List.mem_cons_of_mem _ hy))]

/-- Layout of the output of `compressFile` on a non-empty input: preamble, a padding count
of at most 7, and payload bytes whose bits are the codes followed by the padding. -/
theorem compressFile_layout (top : TopPolicy) (input : List Nat) (h : input ≠ []) :
    ∃ paddingCount payload,
      compressFile top input =
          (true, writeTree (buildHuffmanTree top (buildFrequencyMap input)) ++
            paddingCount :: payload) ∧
        bytesToBits payload =
          input.flatMap (codeOf (generateHuffmanCodes (buildHuffmanTree top (buildFrequencyMap input)) [] []))
            ++ List.replicate paddingCount false ∧
        paddingCount ≤ 7 := by
  rw [compressFile_eq top input h]
  have hs := packLoop_spec
    (generateHuffmanCodes (buildHuffmanTree top (buildFrequencyMap input)) [] []) input []
  obtain ⟨hs1, hs2⟩ := hs
  rw [List.nil_append] at hs1
  have hlt : (packLoop (generateHuffmanCodes (buildHuffmanTree top (buildFrequencyMap input)) [] [])
      input []).2.length < 8 := hs2.resolve_right h
  rw [← hs1]
  generalize packLoop (generateHuffmanCodes (buildHuffmanTree top (buildFrequencyMap input)) [] [])
    input [] = r at hlt ⊢
  refine ⟨_, _, rfl, ?_, ?_⟩
  · by_cases hz : r.2 = []
    · simp [hz, bytesToBits_append, bytesToBits]
    · have hpos : 0 < r.2.length := List.length_pos.mpr hz
      have hlen : (r.2 ++ List.replicate (8 - r.2.length) false).length = 8 := by
        simp only [List.length_append, List.length_replicate]; omega
      have hmod : (8 - r.2.length) % 256 = 8 - r.2.length := Nat.mod_eq_of_lt (by omega)
      simp only [List.isEmpty_iff, hz, if_false, bytesToBits_append, hmod]
      rw [List.take_of_length_le (le_of_eq hlen)]
      simp only [bytesToBits, List.flatMap_cons, List.flatMap_nil, List.append_nil]
      rw [byteToBits_bitsToByte_of_length _ hlen, List.append_assoc]
  · by_cases hz : r.2 = []
    · simp [hz]
    · have hpos : 0 < r.2.length := List.length_pos.mpr hz
      simp only [List.isEmpty_iff, hz, if_false]
      omega

end Huffman

namespace Huffman
open HuffmanNode

theorem two_le_length_of_mem_ne {l : List Nat} {a b : Nat} (ha : a ∈ l) (hb : b ∈ l)
    (hab : a ≠ b) : 2 ≤ l.length := by
  match l, ha, hb with
  | [x], ha, hb =>
    simp only [List.mem_singleton] at ha hb
    exact absurd (ha.trans hb.symm) hab
  | _ :: _ :: _, _, _ => simp

/-- C13. Round trip for non-trivial alphabets: for every byte sequence that contains at
least two distinct byte values, `compressFile` returns `true`, and `decompressFile` on its
output returns `true` and writes exactly the original sequence. -/
theorem round_trip_two_symbols (top : TopPolicy) (hv : ValidTop top) (junk : Junk)
    (input : List Nat) (a b : Nat) (ha : a ∈ input) (hb : b ∈ input) (hab : a ≠ b) :
    (compressFile top input).1 = true ∧
      decompressFile junk (compressFile top input).2 = some (true, input) := by
  have hne : input ≠ [] := List.ne_nil_of_mem ha
  obtain ⟨hsorted, hkeys⟩ := buildFrequencyMap_sorted input
  have hlen : 2 ≤ (buildFrequencyMap input).length := by
    have := two_le_length_of_mem_ne ((hkeys a).mpr ha) ((hkeys b).mpr hb) hab
    simpa using this
  obtain ⟨hfull, hperm⟩ := buildHuffmanTree_shape top hv (buildFrequencyMap input) hlen
  obtain ⟨pad, payload, hout, hbits, hpad⟩ := compressFile_layout top input hne
  generalize buildFrequencyMap input = fr at *
  generalize htdef : buildHuffmanTree top fr = t at *
  have hroot : isLeaf t = false :=
    isLeaf_eq_false_of_leaves t (by rw [hperm.length_eq]; exact hlen)
  have hnodup : ((leaves t).map Prod.fst).Nodup :=
    ((hperm.map Prod.fst).nodup_iff).mpr (nodup_keys_of_mapSorted fr hsorted)
  have hcode : ∀ x ∈ input, (x, codeOf (generateHuffmanCodes t [] []) x) ∈ leafPaths t := by
    intro x hx
    have h1 : x ∈ (leafPaths t).map Prod.fst := by
      rw [leafPaths_keys]
      exact (hperm.map Prod.fst).symm.subset ((hkeys x).mpr hx)
    obtain ⟨e, he, rfl⟩ := List.mem_map.mp h1
    have := mapFind_generateHuffmanCodes t hroot hnodup e.1 e.2 he
    simpa [codeOf, this] using he
  rw [hout]
  refine ⟨rfl, ?_⟩
  simp only []
  have hread : readTree junk (IStream.openFile (writeTree t ++ pad :: payload)) =
      some (skeleton t, ⟨writeTree t ++ pad :: payload, (writeTree t).length, false, false⟩) := by
    have := readTreeFuel_writeTree junk t hfull ((writeTree t ++ pad :: payload).length + 2)
      (writeTree t ++ pad :: payload) 0 (pad :: payload) (by simp; omega) rfl
    simpa [readTree, IStream.openFile] using this
  have hnn : (skeleton t).isNull = false := by
    rw [skeleton_isNull]; exact isFull_not_isNull hfull
  rw [decompressFile_eq_walk junk _ _ _ hread hnn,
    participatingBits_of_payload junk _ _ pad payload (by simp),
    loopBits_eq_take pad (by omega) payload 0 payload.length (by simp)]
  have hlenbits := congrArg List.length hbits
  simp only [bytesToBits_length, List.length_append, List.length_replicate] at hlenbits
  have htake : List.take (8 * payload.length - pad) (bytesToBits payload) =
      input.flatMap (codeOf (generateHuffmanCodes t [] [])) := by
    rw [hbits, hlenbits, Nat.add_sub_cancel, List.take_left]
  rw [htake, walkBits_flatMap (skeleton t) (by rw [skeleton_isLeaf]; exact hroot) _ input
    (by rw [skeleton_leafPaths]; exact hcode)]

theorem round_trip_two_symbols_witness :
    ValidTop firstMin ∧ 1 ∈ [1, 2, 3, 1, 2, 1] ∧ 2 ∈ [1, 2, 3, 1, 2, 1] ∧ (1 : Nat) ≠ 2 ∧
      (compressFile firstMin [1, 2, 3, 1, 2, 1]).1 = true ∧
      decompressFile ⟨0, 0, 0⟩ (compressFile firstMin [1, 2, 3, 1, 2, 1]).2
        = some (true, [1, 2, 3, 1, 2, 1]) :=
  ⟨firstMin_valid, by decide, by decide, by decide,
    round_trip_two_symbols firstMin firstMin_valid ⟨0, 0, 0⟩ [1, 2, 3, 1, 2, 1] 1 2
      (by decide) (by decide) (by decide)⟩

/-! ## What `readTree` does on malformed and one-child preambles -/

/-- A call of `readTree` on a good stream whose next byte is INTERNAL returns a non-null
node made of whatever the two recursive calls return, and the position has moved on by at
least one byte. -/
theorem readTreeFuel_internal (junk : Junk) (fuel : Nat) (bytes : List Nat) (pos : Nat)
    (hget : bytes[pos]? = some 0) (hfuel : bytes.length - pos + 2 ≤ fuel) :
    ∃ l r s, readTreeFuel junk fuel ⟨bytes, pos, false, false⟩ = some (node 0 0 l r, s) ∧
      pos + 1 ≤ s.pos := by
  obtain ⟨fuel, rfl⟩ : ∃ n, fuel = n + 1 := ⟨fuel - 1, by omega⟩
  have hlt : pos < bytes.length := by
    by_contra hc
    rw [List.getElem?_eq_none_iff.mpr (by omega)] at hget
    simp at hget
  have hg := get_of_getElem? bytes pos 0 junk.marker hget
  obtain ⟨l, sl, -, -, hl, -, hbl, -, hp1, hq1, -, -, -⟩ :=
    readTreeFuel_junk junk junk fuel ⟨bytes, pos + 1, false, false⟩
      (by first | omega | (simp only; omega)) (by first | omega | (simp only; omega))
  simp only at hbl hp1 hq1
  obtain ⟨r, sr, -, -, hr, -, -, -, hp2, -, -, -, -⟩ :=
    readTreeFuel_junk junk junk fuel sl (by rw [hbl]; exact hq1) (by rw [hbl]; omega)
  refine ⟨l, r, sr, ?_, by omega⟩
  rw [readTreeFuel]
  simp [IStream.good, IStream.eof, hg, hl, hr, LEAF_NODE_MARKER, INTERNAL_NODE_MARKER]

/-- C16, as the code behaves. When the first byte of the stream is a marker other than 0
and 1, `readTree` returns the null pointer, having consumed that byte. When the first byte
is 0 (INTERNAL) or 1 (LEAF), `readTree` returns a non-null node, whatever it meets further
on: a bad marker or the end of the stream inside the subtrees of an INTERNAL node does not
make the result of the top-level call null. -/
theorem readTree_null_only_on_first_marker (junk : Junk) (m : Nat) (rest : List Nat) :
    (m ≠ 0 → m ≠ 1 →
        readTree junk (IStream.openFile (m :: rest)) = some (null, ⟨m :: rest, 1, false, false⟩)) ∧
      (m = 0 ∨ m = 1 →
        ∃ t s, readTree junk (IStream.openFile (m :: rest)) = some (t, s) ∧ t.isNull = false) := by
  constructor
  · intro h0 h1
    simp [readTree, readTreeFuel, IStream.openFile, IStream.good, IStream.eof, IStream.get,
      LEAF_NODE_MARKER, INTERNAL_NODE_MARKER, h0, h1]
  · rintro (rfl | rfl)
    · obtain ⟨l, r, s, h, -⟩ := readTreeFuel_internal junk ((0 :: rest).length + 2) (0 :: rest) 0
        (by simp) (by simp)
      exact ⟨node 0 0 l r, s, h, rfl⟩
    · refine ⟨node (IStream.get ⟨1 :: rest, 1, false, false⟩ junk.data).1 0 null null,
        (IStream.get ⟨1 :: rest, 1, false, false⟩ junk.data).2, ?_, rfl⟩
      simp [readTree, readTreeFuel, IStream.openFile, IStream.good, IStream.eof,
        get_of_getElem? (1 :: rest) 0 1 junk.marker (by simp), LEAF_NODE_MARKER]

theorem readTree_null_only_on_first_marker_witness :
    ((5 : Nat) ≠ 0 → (5 : Nat) ≠ 1 →
        readTree ⟨0, 0, 0⟩ (IStream.openFile [5, 1, 65]) = some (null, ⟨[5, 1, 65], 1, false, false⟩)) ∧
      ((0 : Nat) = 0 ∨ (0 : Nat) = 1) ∧
      ∃ t s, readTree ⟨0, 0, 0⟩ (IStream.openFile [0, 5, 1, 7]) = some (t, s) ∧ t.isNull = false :=
  ⟨(readTree_null_only_on_first_marker ⟨0, 0, 0⟩ 5 [1, 65]).1, Or.inl rfl,
    (readTree_null_only_on_first_marker ⟨0, 0, 0⟩ 0 [5, 1, 7]).2 (Or.inl rfl)⟩

/-- C16, as stated, fails. In the stream `00 05 01 07` the marker `05` stands where the
left child of the INTERNAL root is expected, and in the stream `00 01 41` the stream ends
where the right child is expected; in both cases, whatever the uninitialised locals hold,
the top-level `readTree` returns a non-null root. -/
theorem readTree_nested_failure_counterexample :
    (∀ junk : Junk, readTree junk (IStream.openFile [0, 5, 1, 7]) =
        some (node 0 0 null (node 7 0 null null), ⟨[0, 5, 1, 7], 4, false, false⟩)) ∧
      (∀ junk : Junk, ∃ r s, readTree junk (IStream.openFile [0, 1, 0x41]) =
        some (node 0 0 (node 0x41 0 null null) r, s)) := by
  constructor
  · intro junk
    rfl
  · intro junk
    obtain ⟨t, hr⟩ := readTreeFuel_at_end_state junk 2 [0, 1, 0x41] 3 (by simp)
    refine ⟨t, ⟨[0, 1, 0x41], 3, true, true⟩, ?_⟩
    have hl : readTreeFuel junk 4 ⟨[0, 1, 0x41], 1, false, false⟩ =
        some (node 0x41 0 null null, ⟨[0, 1, 0x41], 3, false, false⟩) := by rfl
    have hg := get_of_getElem? [0, 1, 0x41] 0 0 junk.marker (by simp)
    show readTreeFuel junk 5 ⟨[0, 1, 0x41], 0, false, false⟩ = _
    rw [readTreeFuel]
    simp [IStream.good, IStream.eof, hg, hl, hr, LEAF_NODE_MARKER, INTERNAL_NODE_MARKER]

/-- C15 fails on the code, for every single-symbol input. On the output of `compressFile`
for `n ≥ 1` copies of the byte `b` (`00 01 b`, the padding count, the payload), `readTree`
returns a root but has consumed at least four bytes: the call for the absent right child
takes the padding count for a marker, so the next byte read is not the padding count. -/
theorem one_child_preamble_overread (top : TopPolicy) (hv : ValidTop top) (junk : Junk)
    (b n : Nat) (hn : 1 ≤ n) :
    ∃ l r s, readTree junk (IStream.openFile (compressFile top (List.replicate n b)).2)
        = some (node 0 0 l r, s) ∧ 4 ≤ s.pos := by
  rw [compressFile_replicate top hv b n hn]
  simp only []
  generalize (if n % 8 = 0 then 0 else 8 - n % 8) = p
  generalize List.replicate ((n + 7) / 8) 0 = payload
  have hlen : (0 :: 1 :: b :: p :: payload).length + 2 = (payload.length + 5) + 1 := by simp
  have hg := get_of_getElem? (0 :: 1 :: b :: p :: payload) 0 0 junk.marker (by simp)
  have hl := readTreeFuel_writeTree junk (node b 0 null null) (by simp [isFull, isNull])
    (payload.length + 5) (0 :: 1 :: b :: p :: payload) 1 (p :: payload)
    (by simp [writeTree, isNull]) (by simp [writeTree, isNull, LEAF_NODE_MARKER])
  simp only [writeTree, isNull, Bool.and_self, if_true, List.length_cons, List.length_nil,
    skeleton] at hl
  have hgp := get_of_getElem? (0 :: 1 :: b :: p :: payload) 3 p junk.marker (by simp)
  have hright : ∃ r s, readTreeFuel junk (payload.length + 5)
      ⟨0 :: 1 :: b :: p :: payload, 3, false, false⟩ = some (r, s) ∧ 4 ≤ s.pos := by
    by_cases hp1 : p = 1
    · subst hp1
      cases hd : (0 :: 1 :: b :: 1 :: payload)[4]? with
      | none =>
        have hgd := get_of_getElem?_none (0 :: 1 :: b :: 1 :: payload) 4 junk.data hd
        exact ⟨node junk.data 0 null null, ⟨0 :: 1 :: b :: 1 :: payload, 4, true, true⟩,
          by simp [readTreeFuel, IStream.good, IStream.eof, hgp, hgd, LEAF_NODE_MARKER],
          le_refl _⟩
      | some d =>
        have hgd := get_of_getElem? (0 :: 1 :: b :: 1 :: payload) 4 d junk.data hd
        exact ⟨node d 0 null null, ⟨0 :: 1 :: b :: 1 :: payload, 5, false, false⟩,
          by simp [readTreeFuel, IStream.good, IStream.eof, hgp, hgd, LEAF_NODE_MARKER],
          by simp⟩
    · by_cases hp0 : p = 0
      · subst hp0
        obtain ⟨l, r, s, h, hpos⟩ := readTreeFuel_internal junk (payload.length + 5)
          (0 :: 1 :: b :: 0 :: payload) 3 (by simp) (by simp)
        exact ⟨_, s, h, hpos⟩
      · exact ⟨null, ⟨0 :: 1 :: b :: p :: payload, 4, false, false⟩,
          by simp [readTreeFuel, IStream.good, IStream.eof, hgp, hp1, hp0, LEAF_NODE_MARKER,
            INTERNAL_NODE_MARKER], le_refl _⟩
  obtain ⟨r, s, hr, hpos⟩ := hright
  refine ⟨node b 0 null null, r, s, ?_, hpos⟩
  simp only [readTree, IStream.openFile, hlen]
  rw [readTreeFuel]
  simp [IStream.good, IStream.eof, hg, hl, hr, LEAF_NODE_MARKER, INTERNAL_NODE_MARKER]

theorem one_child_preamble_overread_witness :
    ValidTop firstMin ∧ 1 ≤ 1000 ∧
      ∃ l r s, readTree ⟨0, 0, 0⟩ (IStream.openFile (compressFile firstMin
          (List.replicate 1000 0x41)).2) = some (node 0 0 l r, s) ∧ 4 ≤ s.pos :=
  ⟨firstMin_valid, by decide,
    one_child_preamble_overread firstMin firstMin_valid ⟨0, 0, 0⟩ 0x41 1000 (by decide)⟩

end Huffman
